import Mathlib

/-!
Verification of the DSL→PHP transpilation engine (`src/php_dsl.py`,
class `DSLConverter`) against its natural-language specification.

The whole engine is shallowly embedded over `List Char`: Python strings
become `Str := List Char`, Python lists/dicts become Lean lists /
association lists, the `re` patterns used by the line classifier become
data for a small backtracking matcher (`goM`) whose candidate order
reproduces leftmost greedy/lazy backtracking for the star-height-one
patterns the source uses, and the two statements that can raise at
runtime (`_handle_while`'s use of a possibly-unbound `lvl`, and
`_convert_f_string`'s `parts[0]` on an empty list) are modelled with
`Option` (`none` = a Python exception escaping).

Modelling conventions (documented divergences, all irrelevant to the
claims below): input text is treated as ASCII (`\w`, `str.strip`,
`str.splitlines` are modelled on ASCII space/tab/newline/carriage
return/form feed/vertical tab rather than full Unicode), and
`str.splitlines` splits on `'\n'` only.  The fields `in_function` /
`in_anon_fn` of `DSLConverter` are written but never read by the source,
so they are omitted from the state.
-/

namespace PhpDsl

/-- Python strings are modelled as lists of characters. -/
abbrev Str := List Char

/-- ASCII model of Python's `\s` / `str.strip()` whitespace. -/
def pySpace (c : Char) : Bool :=
  c = ' ' || c = '\t' || c = '\n' || c = '\r' || c = '\x0b' || c = '\x0c'

/-- ASCII model of Python's `\w` (regex word character). -/
def wordChar (c : Char) : Bool :=
  c.isAlpha || c.isDigit || c = '_'

/-- First character of a Python identifier: `[a-zA-Z_]`. -/
def identStart (c : Char) : Bool :=
  c.isAlpha || c = '_'

/-- `str.lstrip()`. -/
def lstrip (s : Str) : Str := s.dropWhile pySpace

/-- `str.rstrip()`. -/
def rstrip (s : Str) : Str := (s.reverse.dropWhile pySpace).reverse

/-- `str.strip()`. -/
def strip (s : Str) : Str := rstrip (lstrip s)

/-- `str.strip(chars)` for an explicit character set. -/
def stripChars (cs : List Char) (s : Str) : Str :=
  ((s.dropWhile (cs.contains ·)).reverse.dropWhile (cs.contains ·)).reverse

/-- `' ' * n` (for the source's `' ' * (lvl - 4)` with Python's negative
repeat giving `''`, callers pass a truncated `Nat` subtraction). -/
def spaces (n : Nat) : Str := List.replicate n ' '

/-- `sub.isPrefixOf s` without type classes, by direct recursion. -/
def isPfx : Str → Str → Bool
  | [], _ => true
  | _ :: _, [] => false
  | a :: as, b :: bs => a = b && isPfx as bs

/-- `s.endswith t`. -/
def endsWith (s t : Str) : Bool := isPfx t.reverse s.reverse

/-- Python `sub in s` (substring containment). -/
def containsSub (sub : Str) : Str → Bool
  | [] => isPfx sub []
  | c :: cs => isPfx sub (c :: cs) || containsSub sub cs

/-- Python `str.replace(pat, rep)` (left-to-right, non-overlapping),
fuel-driven so that the kernel can evaluate it; one fuel unit is spent
per scan position and a match consumes `pat.length ≥ 1` characters, so
fuel `s.length` always suffices (and exhausted fuel returns the
remainder unchanged, which also makes the fuel irrelevant once the
pattern no longer occurs).  The source only ever calls this with a
non-empty `pat`. -/
def replaceSubF (pat rep : Str) : Nat → Str → Str
  | 0, s => s
  | _ + 1, [] => []
  | fuel + 1, c :: cs =>
    if pat.length ≥ 1 ∧ isPfx pat (c :: cs) then
      rep ++ replaceSubF pat rep fuel ((c :: cs).drop pat.length)
    else
      c :: replaceSubF pat rep fuel cs

def replaceSub (pat rep s : Str) : Str :=
  replaceSubF pat rep s.length s

/-- Python `str.split(sep)` for a non-empty separator substring,
fuel-driven like `replaceSubF`. -/
def splitOnSubF (sep : Str) : Nat → Str → List Str
  | 0, s => [s]
  | _ + 1, [] => [[]]
  | fuel + 1, c :: cs =>
    if sep.length ≥ 1 ∧ isPfx sep (c :: cs) then
      [] :: splitOnSubF sep fuel ((c :: cs).drop sep.length)
    else
      match splitOnSubF sep fuel cs with
      | [] => [[c]]
      | p :: ps => (c :: p) :: ps

def splitOnSub (sep s : Str) : List Str :=
  splitOnSubF sep s.length s

/-- Python `str.split(sep, 1)`: split at the first occurrence only. -/
def splitOnceF (sep : Str) : Nat → Str → List Str
  | 0, s => [s]
  | _ + 1, [] => [[]]
  | fuel + 1, c :: cs =>
    if sep.length ≥ 1 ∧ isPfx sep (c :: cs) then
      [[], (c :: cs).drop sep.length]
    else
      match splitOnceF sep fuel cs with
      | [] => [[c]]
      | p :: ps => (c :: p) :: ps

def splitOnce (sep s : Str) : List Str :=
  splitOnceF sep s.length s

/-- Python `str.rsplit(sep, 1)`: split at the last occurrence only. -/
def rsplitOnce (sep : Str) (s : Str) : List Str :=
  match splitOnSub sep s with
  | [] => [s]
  | [p] => [p]
  | p :: q :: ps =>
    [List.intercalate sep ((p :: q :: ps).dropLast),
     (q :: ps).getLast (List.cons_ne_nil q ps)]

/-- Python `str.splitlines()` modelled on `'\n'`: a trailing newline
does not produce a final empty line. -/
def splitLines (s : Str) : List Str :=
  if s = [] then []
  else if endsWith s ['\n'] then (s.splitOn '\n').dropLast
  else s.splitOn '\n'

/-- Python `str.isdigit()` restricted to ASCII digits. -/
def isDigits (s : Str) : Bool :=
  !s.isEmpty && s.all Char.isDigit

/-- `str.lower()` (ASCII). -/
def lowerStr (s : Str) : Str := s.map Char.toLower

/-! ### A small backtracking matcher

The classifier's 30 patterns and the three `re.sub` rewrites in
`_replace_vars` are all anchored sequences of literals and quantified
single-character classes (star height one, no alternation).  For such
patterns, trying the candidate repetition counts of each quantified
class in decreasing (greedy) or increasing (lazy) order, left to right,
is exactly Python's backtracking semantics. -/

/-- A regex quantifier as used by the source patterns. -/
inductive Quant where
  | one : Quant
  | star : Bool → Quant   -- `*` / `*?`; the Bool is "greedy"
  | plus : Bool → Quant   -- `+` / `+?`
deriving Repr

/-- One pattern element: a literal or a quantified character class. -/
inductive Piece where
  | lit : Str → Piece
  | cls : (Char → Bool) → Quant → Piece

/-- A pattern element together with the capture group it belongs to
(a group spanning several pieces repeats the same index). -/
structure PItem where
  piece : Piece
  grp : Option Nat := none

abbrev Pat := List PItem

/-- First `some` result of `f` along a list (backtracking search order). -/
def firstSome {α β : Type} (f : α → Option β) : List α → Option β
  | [] => none
  | a :: as =>
    match f a with
    | some b => some b
    | none => firstSome f as

/-- Candidate repetition counts for a quantifier, in backtracking
order: greedy tries longest first, lazy shortest first. -/
def clsCounts (q : Quant) (maxN : Nat) : List Nat :=
  match q with
  | .one => if maxN ≥ 1 then [1] else []
  | .star true => (List.range (maxN + 1)).reverse
  | .star false => List.range (maxN + 1)
  | .plus true => ((List.range (maxN + 1)).reverse).filter (fun k => decide (k ≥ 1))
  | .plus false => (List.range (maxN + 1)).filter (fun k => decide (k ≥ 1))

/-- Matched fragments: each pattern element's capture-group index
(if any) with the substring it consumed, in order. -/
abbrev Caps := List (Option Nat × Str)

/-- Backtracking matcher.  `exact = true` demands the whole string be
consumed (the classifier's `^...$` patterns); `exact = false` matches a
prefix and returns the remainder (used by the `re.sub`/`re.search`
rewrites). -/
def goM (exact : Bool) : Pat → Str → Option (Caps × Str)
  | [], s => if exact && !s.isEmpty then none else some ([], s)
  | it :: rest, s =>
    match it.piece with
    | .lit l =>
      if s.take l.length = l then
        (goM exact rest (s.drop l.length)).map (fun (cs, r) => ((it.grp, l) :: cs, r))
      else
        none
    | .cls c q =>
      let maxN := (s.takeWhile c).length
      firstSome
        (fun k =>
          (goM exact rest (s.drop k)).map (fun (cs, r) => ((it.grp, s.take k) :: cs, r)))
        (clsCounts q maxN)

/-- Full anchored match (`re.Pattern.match` with `$` at the end, as in
every classifier pattern): the captured fragments, or `none`. -/
def fullMatch (p : Pat) (s : Str) : Option Caps :=
  (goM true p s).map Prod.fst

/-- Concatenation of the fragments captured by group `i`. -/
def capGet (cs : Caps) (i : Nat) : Str :=
  (cs.filterMap (fun gc => if gc.1 = some i then some gc.2 else none)).flatten

/-- `re.sub(p, tmpl, s)`: scan left to right, replace non-overlapping
matches, resume after each replacement.  `fuel` is initialised to the
string length; all source patterns consume at least one character per
match, so the fuel never runs out on a real input. -/
def subAllF (p : Pat) (tmpl : Caps → Str) : Nat → Str → Str
  | 0, s => s
  | _ + 1, [] => []
  | fuel + 1, c :: cs =>
    match goM false p (c :: cs) with
    | some (caps, rest) =>
      if rest.length < (c :: cs).length then
        tmpl caps ++ subAllF p tmpl fuel rest
      else
        c :: subAllF p tmpl fuel cs
    | none => c :: subAllF p tmpl fuel cs

/-- `re.sub` entry point. -/
def subAll (p : Pat) (tmpl : Caps → Str) (s : Str) : Str :=
  subAllF p tmpl s.length s

/-- `re.search(p, s) is not None` where `p` ends in `$`: some suffix of
`s` fully matches `p`. -/
def searchAtEnd (p : Pat) (s : Str) : Bool :=
  (List.range (s.length + 1)).any (fun i => (fullMatch p (s.drop i)).isSome)

/-! ### Expression Rewriter (`DSLConverter._replace_vars`, lines 139-203)
and its helpers `_convert_f_string` (102-137), `_convert_value` (205-227). -/

/-- `[^)]`. -/
def nonParen (c : Char) : Bool := c ≠ ')'

/-- `(\w+)\.split\s*\(([^)]+)\)` (line 141). -/
def splitIdiomPat : Pat :=
  [⟨.cls wordChar (.plus true), some 1⟩,
   ⟨.lit ".split".toList, none⟩,
   ⟨.cls pySpace (.star true), none⟩,
   ⟨.lit ['('], none⟩,
   ⟨.cls nonParen (.plus true), some 2⟩,
   ⟨.lit [')'], none⟩]

/-- replacement `explode(\2, \1)`. -/
def splitIdiomTmpl (cs : Caps) : Str :=
  "explode(".toList ++ capGet cs 2 ++ ", ".toList ++ capGet cs 1 ++ [')']

/-- `(\w+)\.strip\s*\(\)` (line 142). -/
def stripIdiomPat : Pat :=
  [⟨.cls wordChar (.plus true), some 1⟩,
   ⟨.lit ".strip".toList, none⟩,
   ⟨.cls pySpace (.star true), none⟩,
   ⟨.lit "()".toList, none⟩]

/-- replacement `trim(\1)`. -/
def stripIdiomTmpl (cs : Caps) : Str :=
  "trim(".toList ++ capGet cs 1 ++ [')']

/-- `(\w+)\.append\s*\(([^)]+)\)` (line 143). -/
def appendIdiomPat : Pat :=
  [⟨.cls wordChar (.plus true), some 1⟩,
   ⟨.lit ".append".toList, none⟩,
   ⟨.cls pySpace (.star true), none⟩,
   ⟨.lit ['('], none⟩,
   ⟨.cls nonParen (.plus true), some 2⟩,
   ⟨.lit [')'], none⟩]

/-- replacement `\1[] = \2`. -/
def appendIdiomTmpl (cs : Caps) : Str :=
  capGet cs 1 ++ "[] = ".toList ++ capGet cs 2

/-- The split into string-literal and non-literal spans
(lines 155-180): single or double quotes, a quote closes only the kind
that opened it, no escape handling.  An unterminated trailing span is
kept as-is (the final `if current`). -/
def splitStrParts (current : Str) (inString : Bool) (stringChar : Option Char) :
    Str → List Str
  | [] => if current = [] then [] else [current]
  | c :: cs =>
    if (c = '"' || c = '\'') && (!inString || stringChar = some c) then
      if inString then
        (current ++ [c]) :: splitStrParts [] false none cs
      else
        (if current = [] then [] else [current]) ++ splitStrParts [c] true (some c) cs
    else
      splitStrParts (current ++ [c]) inString stringChar cs

/-- A part that the per-part loop treats as a string literal
(line 185): starts and ends with the same quote character. -/
def isQuotedPart (p : Str) : Bool :=
  (isPfx ['"'] p && endsWith p ['"']) || (isPfx ['\''] p && endsWith p ['\''])

/-- The `re.sub(r'\b([a-zA-Z_][a-zA-Z0-9_]*)\b', lambda ...)` known-variable
substitution (lines 189-193).  `\b...\b` around `[a-zA-Z_][a-zA-Z0-9_]*`
matches exactly the maximal word-character runs whose first character is
a letter or underscore, so the substitution walks the maximal runs: a
run in the variable set (and not in the constant set) gets a `$` sigil,
a run in the constant set stays bare, anything else is unchanged. -/
def substIdentF (vars consts : List Str) : Nat → Str → Str
  | 0, s => s
  | _ + 1, [] => []
  | fuel + 1, c :: cs =>
    if wordChar c then
      let run := c :: cs.takeWhile wordChar
      (if identStart c && vars.contains run && !consts.contains run then
        '$' :: run
       else run) ++ substIdentF vars consts fuel (cs.dropWhile wordChar)
    else
      c :: substIdentF vars consts fuel cs

def substIdent (vars consts : List Str) (s : Str) : Str :=
  substIdentF vars consts s.length s

/-- The Python-keyword textual replacements applied to each non-string
part after the variable substitution (lines 194-200), in source order. -/
def keywordRepl (s : Str) : Str :=
  let s := replaceSub "True".toList "true".toList s
  let s := replaceSub "False".toList "false".toList s
  let s := replaceSub "None".toList "null".toList s
  let s := replaceSub " and ".toList " && ".toList s
  let s := replaceSub " or ".toList " || ".toList s
  replaceSub " not ".toList " ! ".toList s

/-- `'"' + segment.replace('"', '\\"') + '"'`: a literal f-string
segment re-quoted (lines 118, 135). -/
def quoteSeg (s : Str) : Str :=
  '"' :: replaceSub ['"'] ['\\', '"'] s ++ ['"']

/-- Body loop of `_convert_f_string` (lines 110-135), with `rv` the
recursive `_replace_vars` call on placeholder contents (which can fail,
hence `Option`).  Braces do not nest: the first `{` opens a
placeholder, the first following `}` closes it. -/
def convertFStringGo (rv : Str → Option Str) (parts : List Str) (current : Str)
    (inPh : Bool) : Str → Option (List Str)
  | [] =>
    if current = [] then some parts
    else if inPh then do
      let ve ← rv (strip current)
      pure (parts ++ [ve])
    else
      pure (parts ++ [quoteSeg current])
  | c :: cs =>
    if c = '\x7b' && !inPh then
      convertFStringGo rv (if current = [] then parts else parts ++ [quoteSeg current])
        [] true cs
    else if c = '\x7d' && inPh then do
      let ve ← rv (strip current)
      convertFStringGo rv (parts ++ [ve]) [] false cs
    else
      convertFStringGo rv parts (current ++ [c]) inPh cs

/-- `_convert_f_string` (lines 102-137).  `parts[0]` on an empty parts
list is Python's `IndexError` — modelled as `none`. -/
def convertFString (rv : Str → Option Str) (s : Str) : Option Str :=
  if isPfx "f\"".toList s || isPfx "f'".toList s then do
    let content := ((s.drop 2).dropLast)
    let parts ← convertFStringGo rv [] [] false content
    match parts with
    | [] => none                        -- `parts[0]` raises IndexError
    | [p] => some p
    | ps => some (List.intercalate " . ".toList ps)
  else
    some s

/-- `_replace_vars` (lines 139-203).  The fuel bounds the f-string
placeholder recursion depth; started at `expr.length + 1` it can never
run out, since each recursive call is on a strict substring that is
shorter by at least three characters. -/
def replaceVarsF (vars consts : List Str) : Nat → Str → Option Str
  | 0, _ => none
  | n + 1, expr =>
    let e := subAll splitIdiomPat splitIdiomTmpl expr
    let e := subAll stripIdiomPat stripIdiomTmpl e
    let e := subAll appendIdiomPat appendIdiomTmpl e
    let e := replaceSub "len(".toList "count(".toList e
    let e := replaceSub "open(".toList "fopen(".toList e
    let e := replaceSub "int(".toList "intval(".toList e
    if isPfx "f\"".toList e || isPfx "f'".toList e then
      convertFString (replaceVarsF vars consts n) e
    else
      let e := replaceSub "..".toList ".".toList e
      let parts := splitStrParts [] false none e
      some ((parts.map (fun p =>
        if isQuotedPart p then p else keywordRepl (substIdent vars consts p))).flatten)

/-- `_replace_vars` entry point. -/
def replaceVars (vars consts : List Str) (expr : Str) : Option Str :=
  replaceVarsF vars consts (expr.length + 1) expr

/-- Loop body of `_convert_value`'s map-literal branch (lines 212-218):
elements with no `:` are skipped (`continue`), the rest contribute a
quoted key and a rewritten value. -/
def mapEntries (rv : Str → Option Str) : List Str → Option (List Str)
  | [] => some []
  | p :: ps =>
    if containsSub [':'] p then
      match splitOnce [':'] p with
      | [k, val] => do
        let key := stripChars ['\''] (stripChars ['"'] (strip k))
        let rvv ← rv (strip val)
        let rest ← mapEntries rv ps
        pure (('\'' :: key ++ '\'' :: " => ".toList ++ rvv) :: rest)
      | _ => mapEntries rv ps           -- unreachable: `:` is in `p`
    else
      mapEntries rv ps

/-- `_convert_value` (lines 205-227). -/
def convertValue (vars consts : List Str) (value : Str) : Option Str := do
  let v := strip value
  if isPfx ['['] v && endsWith v [']'] then
    let parts := (splitOnSub [','] ((v.drop 1).dropLast)).map strip
    let rvs ← parts.mapM (replaceVars vars consts)
    pure ('[' :: List.intercalate ", ".toList rvs ++ [']'])
  else if isPfx ['\x7b'] v && endsWith v ['\x7d'] then
    let parts := (splitOnSub [','] ((v.drop 1).dropLast)).map strip
    let kv ← mapEntries (replaceVars vars consts) parts
    pure ('[' :: List.intercalate ", ".toList kv ++ [']'])
  else if lowerStr v = "true".toList then
    pure "true".toList
  else if lowerStr v = "false".toList then
    pure "false".toList
  else if isDigits v then
    pure v
  else
    replaceVars vars consts v

/-! ### Converter state (`DSLConverter.__init__`, lines 15-32)

Stacks have their top at the list head (Python appends/pops at the
list end).  `known_vars` / `known_constants` are Python sets that the
source only ever queries for membership, so duplicate-free lists are a
faithful model.  `with_vars` is a dict modelled as an association list
where insertion conses and lookup takes the first hit. -/

/-- One recorded case of the match accumulator (lines 397-400). -/
structure MatchCase where
  values : List Str
  result : Str
deriving Repr, DecidableEq

structure ConvState where
  block_types : List Str
  known_vars : List Str
  known_constants : List Str
  indent_stack : List Nat
  do_while_pending : Bool
  switch_pending : Bool
  case_pending : Bool
  php_lines : List Str
  current_match_var : Option Str
  match_cases : List MatchCase
  with_vars : List (Nat × (Nat × Str))
  current_match_type : Option Str
  current_match_dest : Option Str
deriving Repr, DecidableEq

/-- `set.add`. -/
def addSet (x : Str) (s : List Str) : List Str :=
  if s.contains x then s else s ++ [x]

/-- `dict.get` on `with_vars` (first hit wins, newest first). -/
def lookupWith (m : List (Nat × (Nat × Str))) (k : Nat) : Option (Nat × Str) :=
  (m.find? (fun e => e.1 = k)).map Prod.snd

/-- The fresh state built by `__init__` (lines 15-32). -/
def initState : ConvState :=
  { block_types := [], known_vars := [], known_constants := [],
    indent_stack := [0], do_while_pending := false, switch_pending := false,
    case_pending := false, php_lines := [], current_match_var := none,
    match_cases := [], with_vars := [], current_match_type := none,
    current_match_dest := none }

/-- `_finalize_match` (lines 414-447).  A no-op unless a discriminant
and at least one case are present; the unknown-mode branch (`else:
return`, line 430-431) also leaves the state untouched.  Python
str-formats a `None` destination as `"None"`. -/
def finalizeMatch (σ : ConvState) : ConvState :=
  match σ.current_match_var with
  | none => σ
  | some mv =>
    if σ.match_cases = [] then σ
    else
      let indent := match σ.indent_stack with | [] => 0 | i :: _ => i
      let exprStr :=
        if lowerStr mv = "true".toList ∨ lowerStr mv = "false".toList then mv
        else '$' :: mv
      let destStr := match σ.current_match_dest with
        | some d => d
        | none => "None".toList
      let header? : Option Str :=
        if σ.current_match_type = some "assignment".toList then
          some ('$' :: destStr ++ " = match (".toList ++ exprStr ++ ") \x7b".toList)
        else if σ.current_match_type = some "return".toList then
          some ("return match (".toList ++ exprStr ++ ") \x7b".toList)
        else none
      match header? with
      | none => σ
      | some header =>
        let caseLines := σ.match_cases.map (fun c =>
          if c.values = ["default".toList] then
            "    default => ".toList ++ c.result ++ [',']
          else
            "    ".toList ++ List.intercalate ", ".toList c.values ++
              " => ".toList ++ c.result ++ [','])
        let lines := header :: caseLines ++ ["\x7d;".toList]
        { σ with
          php_lines := σ.php_lines ++ lines.map (fun l => spaces indent ++ l),
          current_match_var := none, match_cases := [],
          current_match_type := none, current_match_dest := none }

/-- The closer-emission branch chain shared by each `_adjust_indent`
iteration (lines 81-100), after the pops and the match finalization;
`bt` is the popped block kind, `lvl` the popped indentation level. -/
def adjustCloseEmit (bt : Option Str) (lvl : Nat) (σ : ConvState) : ConvState :=
  if bt = some "do".toList ∧ σ.do_while_pending then
    σ
  else if bt = some "with".toList then
    match lookupWith σ.with_vars lvl with
    | some (base, vn) =>
      { σ with php_lines := σ.php_lines ++
          [spaces base ++ "\x7d finally \x7b".toList,
           spaces (base + 4) ++ "if (isset($".toList ++ vn ++
             ") && is_resource($".toList ++ vn ++ ")) \x7b".toList,
           spaces (base + 8) ++ "fclose($".toList ++ vn ++ ");".toList,
           spaces (base + 4) ++ ['\x7d'],
           spaces base ++ ['\x7d']] }
    | none => σ
  else if bt = some "anon_fn".toList then
    { σ with php_lines := σ.php_lines ++ [spaces lvl ++ "\x7d;".toList] }
  else if σ.case_pending then
    { σ with
      php_lines := σ.php_lines ++
        [spaces lvl ++ "break;".toList, spaces lvl ++ ['\x7d']],
      case_pending := false }
  else if σ.switch_pending then
    { σ with
      php_lines := σ.php_lines ++ [spaces lvl ++ ['\x7d']],
      switch_pending := false }
  else
    { σ with php_lines := σ.php_lines ++ [spaces lvl ++ ['\x7d']] }

/-- Body of `_adjust_indent`'s `while` loop (lines 70-100), driven by
a fuel initialised to the stack depth (the loop pops one entry per
iteration, so that fuel is always enough).  `block_types.pop() if
self.block_types else None` is the guarded pop; `_finalize_match` runs
after the pops, and the guard `if self.current_match_var` around it is
dropped here because `_finalize_match` is a no-op without a
discriminant. -/
def adjustIndentF : Nat → ConvState → Nat → ConvState
  | 0, σ, _ => σ
  | fuel + 1, σ, indent =>
    match σ.indent_stack with
    | [] => σ
    | lvl :: rest =>
      if indent < lvl then
        let bt : Option Str := σ.block_types.head?
        let σ := { σ with indent_stack := rest, block_types := σ.block_types.tail }
        adjustIndentF fuel (adjustCloseEmit bt lvl (finalizeMatch σ)) indent
      else σ

/-- `_adjust_indent` (lines 70-100). -/
def adjustIndent (σ : ConvState) (indent : Nat) : ConvState :=
  adjustIndentF σ.indent_stack.length σ indent

/-! ### The classifier patterns (`_register_handlers`, lines 34-68) -/

def anyChar (_ : Char) : Bool := true

/-- `[A-Z_]`. -/
def upperStart (c : Char) : Bool := c.isUpper || c = '_'

/-- `[A-Z0-9_]`. -/
def upperRest (c : Char) : Bool := c.isUpper || c.isDigit || c = '_'

def pLit (s : String) : PItem := ⟨.lit s.toList, none⟩
def pCls (c : Char → Bool) (q : Quant) : PItem := ⟨.cls c q, none⟩
def pGrp (i : Nat) (c : Char → Bool) (q : Quant) : PItem := ⟨.cls c q, some i⟩
/-- `\s+`. -/
def spP : PItem := pCls pySpace (.plus true)
/-- `\s*`. -/
def spS : PItem := pCls pySpace (.star true)

/-- The recognizers, one per classifier pattern, in registration order. -/
inductive Rule where
  | rImport | rFunc | rAnonShort | rAnonLong | rWith
  | rMatchAssign | rMatchReturn | rCase | rDefault
  | rInput | rTernary | rDo | rWhileColon | rWhileBare
  | rConstant | rAssign | rReturn | rBreak | rContinue | rPass
  | rPrint | rIf | rElif | rElse | rForRange | rForeach
  | rSwitch | rSwitchCase | rSwitchDefault | rFuncCall
deriving Repr, DecidableEq

/-- The ordered (pattern, rule) list of `_register_handlers`
(lines 35-66), one entry per source regex, in source order. -/
def recognizers : List (Pat × Rule) :=
  [ -- `^import\s+"(.+)"$`
    ([pLit "import", spP, pLit "\"", pGrp 1 anyChar (.plus true), pLit "\""], .rImport),
    -- `^func\s+(\w+)\s*\((.+?)\)\s*(\w*)\s*:$`
    ([pLit "func", spP, pGrp 1 wordChar (.plus true), spS, pLit "(",
      pGrp 2 anyChar (.plus false), pLit ")", spS, pGrp 3 wordChar (.star true),
      spS, pLit ":"], .rFunc),
    -- `^(\w+)\s*=\s*fn\s*\((.+?)\)\s*:\s*(.+)$`
    ([pGrp 1 wordChar (.plus true), spS, pLit "=", spS, pLit "fn", spS, pLit "(",
      pGrp 2 anyChar (.plus false), pLit ")", spS, pLit ":", spS,
      pGrp 3 anyChar (.plus true)], .rAnonShort),
    -- `^(\w+)\s*=\s*fn\s*\((.+?)\)\s*:$`
    ([pGrp 1 wordChar (.plus true), spS, pLit "=", spS, pLit "fn", spS, pLit "(",
      pGrp 2 anyChar (.plus false), pLit ")", spS, pLit ":"], .rAnonLong),
    -- `^with\s+(.+?)\s+as\s+(\w+)\s*:$`
    ([pLit "with", spP, pGrp 1 anyChar (.plus false), spP, pLit "as", spP,
      pGrp 2 wordChar (.plus true), spS, pLit ":"], .rWith),
    -- `^(\w+)\s*=\s*match\s+(\w+)\s*:.*$`
    ([pGrp 1 wordChar (.plus true), spS, pLit "=", spS, pLit "match", spP,
      pGrp 2 wordChar (.plus true), spS, pLit ":", pCls anyChar (.star true)],
     .rMatchAssign),
    -- `^return\s+match\s+(\w+)\s*:.*$`
    ([pLit "return", spP, pLit "match", spP, pGrp 1 wordChar (.plus true), spS,
      pLit ":", pCls anyChar (.star true)], .rMatchReturn),
    -- `^case\s+(.+?):\s*(.+)$`
    ([pLit "case", spP, pGrp 1 anyChar (.plus false), pLit ":", spS,
      pGrp 2 anyChar (.plus true)], .rCase),
    -- `^default:\s*(.+)$`
    ([pLit "default:", spS, pGrp 1 anyChar (.plus true)], .rDefault),
    -- `^([A-Za-z_][A-Za-z0-9_]*)\s*=\s*input\s*\((.*)\)$`
    ([pGrp 1 identStart .one, pGrp 1 wordChar (.star true), spS, pLit "=", spS,
      pLit "input", spS, pLit "(", pGrp 2 anyChar (.star true), pLit ")"], .rInput),
    -- `^([A-Za-z_][A-Za-z0-9_]*)\s*=\s*(.+?)\s+if\s+(.+?)\s+else\s+(.+)$`
    ([pGrp 1 identStart .one, pGrp 1 wordChar (.star true), spS, pLit "=", spS,
      pGrp 2 anyChar (.plus false), spP, pLit "if", spP,
      pGrp 3 anyChar (.plus false), spP, pLit "else", spP,
      pGrp 4 anyChar (.plus true)], .rTernary),
    -- `^do:$`
    ([pLit "do:"], .rDo),
    -- `^while\s+(.+):$`
    ([pLit "while", spP, pGrp 1 anyChar (.plus true), pLit ":"], .rWhileColon),
    -- `^while\s+(.+)$`
    ([pLit "while", spP, pGrp 1 anyChar (.plus true)], .rWhileBare),
    -- `^([A-Z_][A-Z0-9_]*)\s*=\s*(.+)$`
    ([pGrp 1 upperStart .one, pGrp 1 upperRest (.star true), spS, pLit "=", spS,
      pGrp 2 anyChar (.plus true)], .rConstant),
    -- `^([a-zA-Z_][a-zA-Z0-9_]*)\s*=\s*(.+)$`
    ([pGrp 1 identStart .one, pGrp 1 wordChar (.star true), spS, pLit "=", spS,
      pGrp 2 anyChar (.plus true)], .rAssign),
    -- `^return\s+(.+)$`
    ([pLit "return", spP, pGrp 1 anyChar (.plus true)], .rReturn),
    -- `^break$`
    ([pLit "break"], .rBreak),
    -- `^continue$`
    ([pLit "continue"], .rContinue),
    -- `^pass$`
    ([pLit "pass"], .rPass),
    -- `^print\((.+)\)$`
    ([pLit "print(", pGrp 1 anyChar (.plus true), pLit ")"], .rPrint),
    -- `^if\s+(.+):$`
    ([pLit "if", spP, pGrp 1 anyChar (.plus true), pLit ":"], .rIf),
    -- `^elif\s+(.+):$`
    ([pLit "elif", spP, pGrp 1 anyChar (.plus true), pLit ":"], .rElif),
    -- `^else:$`
    ([pLit "else:"], .rElse),
    -- `^for\s+(\w+)\s+in\s+range\((.*?)\):$`
    ([pLit "for", spP, pGrp 1 wordChar (.plus true), spP, pLit "in", spP,
      pLit "range(", pGrp 2 anyChar (.star false), pLit "):"], .rForRange),
    -- `^for\s+(\w+)\s+in\s+(.+):$`
    ([pLit "for", spP, pGrp 1 wordChar (.plus true), spP, pLit "in", spP,
      pGrp 2 anyChar (.plus true), pLit ":"], .rForeach),
    -- `^switch\s+(.+):$`
    ([pLit "switch", spP, pGrp 1 anyChar (.plus true), pLit ":"], .rSwitch),
    -- `^case\s+(.+):$`
    ([pLit "case", spP, pGrp 1 anyChar (.plus true), pLit ":"], .rSwitchCase),
    -- `^default:$`
    ([pLit "default:"], .rSwitchDefault),
    -- `^(\w+)\((.*)\)$`
    ([pGrp 1 wordChar (.plus true), pLit "(", pGrp 2 anyChar (.star true),
      pLit ")"], .rFuncCall) ]

/-- The dispatch loop of `convert` (lines 634-638): first pattern that
matches wins, regardless of what its handler later returns. -/
def classifyGo : List (Pat × Rule) → Str → Option (Rule × Caps)
  | [], _ => none
  | (p, r) :: rest, s =>
    match fullMatch p s with
    | some caps => some (r, caps)
    | none => classifyGo rest s

def classify (s : Str) : Option (Rule × Caps) :=
  classifyGo recognizers s

/-! ### Handlers (lines 229-594)

Each handler returns `none` exactly when the Python original would let
an exception escape, and otherwise `some (σ', done)` where `done` is
the handler's boolean result. -/

/-- `php_lines.append`. -/
def emit (σ : ConvState) (l : Str) : ConvState :=
  { σ with php_lines := σ.php_lines ++ [l] }

/-- The paired `indent_stack.append(indent + 4)` /
`block_types.append(kind)`. -/
def pushBlock (σ : ConvState) (lvl : Nat) (bt : Str) : ConvState :=
  { σ with indent_stack := lvl :: σ.indent_stack, block_types := bt :: σ.block_types }

/-- `_handle_import` (lines 229-236). -/
def handleImport (σ : ConvState) (caps : Caps) (indent : Nat) :
    Option (ConvState × Bool) :=
  let filename := capGet caps 1
  if endsWith filename ".ephp".toList then
    let php_file := replaceSub ".ephp".toList ".php".toList filename
    some (emit σ (spaces indent ++ "require_once \"".toList ++ php_file ++ "\";".toList),
      true)
  else
    some (emit σ (spaces indent ++ "require_once \"".toList ++ filename ++ "\";".toList),
      true)

/-- The `return_type_map` of `_handle_func` (lines 240-247),
`dict.get(t, t)`. -/
def returnTypeMap (t : Str) : Str :=
  if t = "void".toList then "void".toList
  else if t = "int".toList then "int".toList
  else if t = "str".toList then "string".toList
  else if t = "bool".toList then "bool".toList
  else if t = "float".toList then "float".toList
  else t

/-- The argument loop of `_handle_func` (lines 252-291), returning
`(arg_parts, arg_names)`. -/
def funcArgsGo (vars consts : List Str) : List Str → Option (List Str × List Str)
  | [] => some ([], [])
  | a :: as => do
    let arg := strip a
    if arg = [] then
      funcArgsGo vars consts as
    else if containsSub ['='] arg then
      match splitOnce ['='] arg with
      | [an, dv] => do
        let arg_name := strip an
        let default_val := strip dv
        if containsSub [' '] arg_name then
          match rsplitOnce [' '] arg_name with
          | [type_part, var_name] => do
            let t := returnTypeMap type_part
            let php_type := if t = "list".toList then "array".toList else t
            let dvr ← replaceVars vars consts default_val
            let (ps, ns) ← funcArgsGo vars consts as
            pure ((php_type ++ " $".toList ++ var_name ++ " = ".toList ++ dvr) :: ps,
                  var_name :: ns)
          | _ => funcArgsGo vars consts as   -- unreachable: a space is present
        else do
          let an2 := if arg_name = "list".toList then "array".toList else arg_name
          let dvr ← replaceVars vars consts default_val
          let (ps, ns) ← funcArgsGo vars consts as
          pure (("$".toList ++ an2 ++ " = ".toList ++ dvr) :: ps, an2 :: ns)
      | _ => funcArgsGo vars consts as       -- unreachable: `=` is present
    else
      if containsSub [' '] arg then
        match rsplitOnce [' '] arg with
        | [type_part, var_name] => do
          let t := returnTypeMap type_part
          let php_type := if t = "list".toList then "array".toList else t
          let (ps, ns) ← funcArgsGo vars consts as
          pure ((php_type ++ " $".toList ++ var_name) :: ps, var_name :: ns)
        | _ => funcArgsGo vars consts as     -- unreachable: a space is present
      else do
        let arg2 := if arg = "list".toList then "array".toList else arg
        let (ps, ns) ← funcArgsGo vars consts as
        pure (("$".toList ++ arg2) :: ps, arg2 :: ns)

/-- `_handle_func` (lines 238-301). -/
def handleFunc (σ : ConvState) (caps : Caps) (indent : Nat) :
    Option (ConvState × Bool) := do
  let name := capGet caps 1
  let args_str := capGet caps 2
  let return_type := capGet caps 3
  let php_return_type := returnTypeMap return_type
  let (arg_parts, arg_names) ←
    if strip args_str = [] then pure (([], []) : List Str × List Str)
    else funcArgsGo σ.known_vars σ.known_constants (splitOnSub [','] args_str)
  let ph_args := List.intercalate ", ".toList arg_parts
  let σ := emit σ (spaces indent ++ "function ".toList ++ name ++ ['('] ++ ph_args ++
      "): ".toList ++ php_return_type ++ " \x7b".toList)
  let σ := pushBlock σ (indent + 4) "function".toList
  pure ({ σ with known_vars := arg_names.foldl (fun s a => addSet a s) σ.known_vars },
    true)

/-- The argument loop shared by `_handle_anon_fn_short` /
`_handle_anon_fn_long` (lines 306-316 and 336-345): `arg.split(' ', 1)`
at the first space, empty arguments are not skipped. -/
def anonArgsGo : List Str → List Str × List Str
  | [] => ([], [])
  | a :: as =>
    let arg := strip a
    let (ps, ns) := anonArgsGo as
    if containsSub [' '] arg then
      match splitOnce [' '] arg with
      | [type_part, arg_name] =>
        ((type_part ++ " $".toList ++ arg_name) :: ps, arg_name :: ns)
      | _ => (ps, ns)                        -- unreachable: a space is present
    else
      (("$".toList ++ arg) :: ps, arg :: ns)

/-- `_handle_anon_fn_short` (lines 303-330). -/
def handleAnonFnShort (σ : ConvState) (caps : Caps) (indent : Nat) :
    Option (ConvState × Bool) := do
  let var_name := capGet caps 1
  let args := capGet caps 2
  let body0 := capGet caps 3
  let (arg_parts, arg_names) :=
    if strip args = [] then ([], []) else anonArgsGo (splitOnSub [','] args)
  let ph_args := List.intercalate ", ".toList arg_parts
  let body1 := if isPfx "return ".toList body0 then body0.drop 7 else body0
  let vars1 := arg_names.foldl (fun s a => addSet a s) σ.known_vars
  let body ← replaceVars vars1 σ.known_constants body1
  let σ := { σ with known_vars := vars1 }
  let σ := emit σ (spaces indent ++ '$' :: var_name ++ " = fn(".toList ++ ph_args ++
      ") => ".toList ++ body ++ [';'])
  pure ({ σ with known_vars := addSet var_name σ.known_vars }, true)

/-- `_handle_anon_fn_long` (lines 332-356). -/
def handleAnonFnLong (σ : ConvState) (caps : Caps) (indent : Nat) :
    Option (ConvState × Bool) := do
  let var_name := capGet caps 1
  let args := capGet caps 2
  let (arg_parts, arg_names) :=
    if strip args = [] then ([], []) else anonArgsGo (splitOnSub [','] args)
  let ph_args := List.intercalate ", ".toList arg_parts
  let vars1 := arg_names.foldl (fun s a => addSet a s) σ.known_vars
  let σ := { σ with known_vars := vars1 }
  let σ := emit σ (spaces indent ++ '$' :: var_name ++ " = function(".toList ++
      ph_args ++ ") \x7b".toList)
  let σ := pushBlock σ (indent + 4) "anon_fn".toList
  pure ({ σ with known_vars := addSet var_name σ.known_vars }, true)

/-- `_handle_with` (lines 358-367). -/
def handleWith (σ : ConvState) (caps : Caps) (indent : Nat) :
    Option (ConvState × Bool) := do
  let expr := capGet caps 1
  let var_name := capGet caps 2
  let php_expr ← replaceVars σ.known_vars σ.known_constants expr
  let σ := emit σ (spaces indent ++ '$' :: var_name ++ " = ".toList ++ php_expr ++ [';'])
  let σ := emit σ (spaces indent ++ "try \x7b".toList)
  let σ := pushBlock σ (indent + 4) "with".toList
  let σ := { σ with known_vars := addSet var_name σ.known_vars }
  pure ({ σ with with_vars := (indent + 4, (indent, var_name)) :: σ.with_vars }, true)

/-- `_handle_match_assignment` (lines 369-376). -/
def handleMatchAssignment (σ : ConvState) (caps : Caps) (_indent : Nat) :
    Option (ConvState × Bool) :=
  let var_name := capGet caps 1
  let match_var := capGet caps 2
  some ({ σ with
          current_match_dest := some var_name,
          current_match_type := some "assignment".toList,
          current_match_var := some match_var,
          match_cases := [],
          known_vars := addSet var_name σ.known_vars }, true)

/-- `_handle_match_return` (lines 378-384). -/
def handleMatchReturn (σ : ConvState) (caps : Caps) (_indent : Nat) :
    Option (ConvState × Bool) :=
  let match_var := capGet caps 1
  some ({ σ with
          current_match_dest := none,
          current_match_type := some "return".toList,
          current_match_var := some match_var,
          match_cases := [] }, true)

/-- `_handle_case` (lines 386-401): declines (`return False`) when no
match accumulator is open. -/
def handleCase (σ : ConvState) (caps : Caps) (_indent : Nat) :
    Option (ConvState × Bool) :=
  match σ.current_match_var with
  | none => some (σ, false)
  | some _ => do
    let values := capGet caps 1
    let result := capGet caps 2
    let value_list := ((splitOnSub "or".toList values).map
        (fun v => (splitOnSub "and".toList v).map strip)).flatten
    let vals ← value_list.mapM (replaceVars σ.known_vars σ.known_constants)
    let res ← replaceVars σ.known_vars σ.known_constants (strip result)
    pure ({ σ with match_cases := σ.match_cases ++ [⟨vals, res⟩] }, true)

/-- `_handle_default` (lines 403-412). -/
def handleDefault (σ : ConvState) (caps : Caps) (_indent : Nat) :
    Option (ConvState × Bool) :=
  match σ.current_match_var with
  | none => some (σ, false)
  | some _ => do
    let result := strip (capGet caps 1)
    let res ← replaceVars σ.known_vars σ.known_constants result
    pure ({ σ with match_cases := σ.match_cases ++ [⟨["default".toList], res⟩] }, true)

/-- `_handle_input` (lines 448-453). -/
def handleInput (σ : ConvState) (caps : Caps) (indent : Nat) :
    Option (ConvState × Bool) :=
  let var := capGet caps 1
  let prompt := stripChars ['\''] (stripChars ['"'] (strip (capGet caps 2)))
  let σ := emit σ (spaces indent ++ '$' :: var ++ " = readline(\"".toList ++ prompt ++
      "\");".toList)
  some ({ σ with known_vars := addSet var σ.known_vars }, true)

/-- `_handle_ternary` (lines 455-462): the variable joins the
known-variable set before the three sub-expressions are rewritten. -/
def handleTernary (σ : ConvState) (caps : Caps) (indent : Nat) :
    Option (ConvState × Bool) := do
  let var := capGet caps 1
  let tv := capGet caps 2
  let cond := capGet caps 3
  let fv := capGet caps 4
  let vars1 := addSet var σ.known_vars
  let c ← replaceVars vars1 σ.known_constants cond
  let t ← replaceVars vars1 σ.known_constants tv
  let f ← replaceVars vars1 σ.known_constants fv
  let σ := { σ with known_vars := vars1 }
  pure (emit σ (spaces indent ++ '$' :: var ++ " = (".toList ++ c ++ ") ? ".toList ++
      t ++ " : ".toList ++ f ++ [';']), true)

/-- `_handle_do` (lines 546-551). -/
def handleDo (σ : ConvState) (_caps : Caps) (indent : Nat) :
    Option (ConvState × Bool) :=
  let σ := emit σ (spaces indent ++ "do \x7b".toList)
  let σ := pushBlock σ (indent + 4) "do".toList
  some ({ σ with do_while_pending := true }, true)

/-- `_handle_while` (lines 553-565).  In the do-while-pending branch
the pop is guarded by `if self.indent_stack:` but the subsequent
`' ' * (lvl - 4)` uses `lvl` unconditionally, so an empty stack leaves
`lvl` unbound and raises `UnboundLocalError` — modelled as `none`.
`' ' * (lvl - 4)` with a negative repeat is `''`, i.e. truncated `Nat`
subtraction. -/
def handleWhile (σ : ConvState) (caps : Caps) (indent : Nat) :
    Option (ConvState × Bool) := do
  let cond := strip (capGet caps 1)
  if σ.do_while_pending then
    match σ.indent_stack with
    | [] => none                -- `lvl` referenced before assignment
    | lvl :: rest => do
      let σ := { σ with indent_stack := rest, block_types := σ.block_types.tail }
      let cv ← replaceVars σ.known_vars σ.known_constants cond
      let σ := emit σ (spaces (lvl - 4) ++ "\x7d while (".toList ++ cv ++ ");".toList)
      pure ({ σ with do_while_pending := false }, true)
  else do
    let cv ← replaceVars σ.known_vars σ.known_constants cond
    let σ := emit σ (spaces indent ++ "while (".toList ++ cv ++ ") \x7b".toList)
    pure (pushBlock σ (indent + 4) "while".toList, true)

/-- `_handle_constant` (lines 464-469): adds to the constant set only. -/
def handleConstant (σ : ConvState) (caps : Caps) (indent : Nat) :
    Option (ConvState × Bool) := do
  let n := capGet caps 1
  let v := capGet caps 2
  let php_v ← replaceVars σ.known_vars σ.known_constants v
  let σ := emit σ (spaces indent ++ "define(\"".toList ++ n ++ "\", ".toList ++
      php_v ++ ");".toList)
  pure ({ σ with known_constants := addSet n σ.known_constants }, true)

/-- `_handle_assignment` (lines 471-476): the variable joins the
known-variable set before the value is converted. -/
def handleAssignment (σ : ConvState) (caps : Caps) (indent : Nat) :
    Option (ConvState × Bool) := do
  let var := capGet caps 1
  let val := capGet caps 2
  let vars1 := addSet var σ.known_vars
  let php_v ← convertValue vars1 σ.known_constants val
  let σ := { σ with known_vars := vars1 }
  pure (emit σ (spaces indent ++ '$' :: var ++ " = ".toList ++ php_v ++ [';']), true)

/-- `_handle_return` (lines 478-480). -/
def handleReturn (σ : ConvState) (caps : Caps) (indent : Nat) :
    Option (ConvState × Bool) := do
  let rv ← replaceVars σ.known_vars σ.known_constants (capGet caps 1)
  pure (emit σ (spaces indent ++ "return ".toList ++ rv ++ [';']), true)

/-- `_handle_break` (lines 482-484). -/
def handleBreak (σ : ConvState) (_caps : Caps) (indent : Nat) :
    Option (ConvState × Bool) :=
  some (emit σ (spaces indent ++ "break;".toList), true)

/-- `_handle_continue` (lines 486-488). -/
def handleContinue (σ : ConvState) (_caps : Caps) (indent : Nat) :
    Option (ConvState × Bool) :=
  some (emit σ (spaces indent ++ "continue;".toList), true)

/-- `_handle_pass` (lines 490-492). -/
def handlePass (σ : ConvState) (_caps : Caps) (indent : Nat) :
    Option (ConvState × Bool) :=
  some (emit σ (spaces indent ++ "// pass".toList), true)

/-- `re.search(r'\$[a-zA-Z_][a-zA-Z0-9_]*$', content)` of
`_handle_print` (line 497): a literal `$`-sigiled identifier at the
very end of the argument text. -/
def dollarIdentPat : Pat :=
  [pLit "$", pCls identStart .one, pCls wordChar (.star true)]

/-- `_handle_print` (lines 494-500). -/
def handlePrint (σ : ConvState) (caps : Caps) (indent : Nat) :
    Option (ConvState × Bool) := do
  let content0 := capGet caps 1
  let content :=
    if searchAtEnd dollarIdentPat content0 then
      "implode(\", \", ".toList ++ content0 ++ [')']
    else content0
  let cv ← replaceVars σ.known_vars σ.known_constants content
  pure (emit σ (spaces indent ++ "echo ".toList ++ cv ++ [';']), true)

/-- `_handle_if` (lines 502-507). -/
def handleIf (σ : ConvState) (caps : Caps) (indent : Nat) :
    Option (ConvState × Bool) := do
  let cond ← replaceVars σ.known_vars σ.known_constants (capGet caps 1)
  let σ := emit σ (spaces indent ++ "if (".toList ++ cond ++ ") \x7b".toList)
  pure (pushBlock σ (indent + 4) "if".toList, true)

/-- `_handle_elif` (lines 509-514). -/
def handleElif (σ : ConvState) (caps : Caps) (indent : Nat) :
    Option (ConvState × Bool) := do
  let cond ← replaceVars σ.known_vars σ.known_constants (capGet caps 1)
  let σ := emit σ (spaces indent ++ "elseif (".toList ++ cond ++ ") \x7b".toList)
  pure (pushBlock σ (indent + 4) "elif".toList, true)

/-- `_handle_else` (lines 516-520). -/
def handleElse (σ : ConvState) (_caps : Caps) (indent : Nat) :
    Option (ConvState × Bool) :=
  let σ := emit σ (spaces indent ++ "else \x7b".toList)
  some (pushBlock σ (indent + 4) "else".toList, true)

/-- `_handle_for_range` (lines 522-536): 1/2/3-argument `range`. -/
def handleForRange (σ : ConvState) (caps : Caps) (indent : Nat) :
    Option (ConvState × Bool) := do
  let var := capGet caps 1
  let args := capGet caps 2
  let parts := (splitOnSub [','] args).map strip
  let (s, e, st) :=
    match parts with
    | [p0] => ("0".toList, p0, "1".toList)
    | [p0, p1] => (p0, p1, "1".toList)
    | p0 :: p1 :: p2 :: _ => (p0, p1, p2)
    | [] => ("0".toList, ([] : Str), "1".toList)  -- unreachable: split is non-empty
  let sv ← replaceVars σ.known_vars σ.known_constants s
  let ev ← replaceVars σ.known_vars σ.known_constants e
  let stv ← replaceVars σ.known_vars σ.known_constants st
  let σ := emit σ (spaces indent ++ "for ($".toList ++ var ++ " = ".toList ++ sv ++
      "; $".toList ++ var ++ " < ".toList ++ ev ++ "; $".toList ++ var ++
      " += ".toList ++ stv ++ ") \x7b".toList)
  let σ := pushBlock σ (indent + 4) "for".toList
  pure ({ σ with known_vars := addSet var σ.known_vars }, true)

/-- `_handle_foreach` (lines 538-544): the loop variable joins the
known-variable set before the collection is rewritten. -/
def handleForeach (σ : ConvState) (caps : Caps) (indent : Nat) :
    Option (ConvState × Bool) := do
  let var := capGet caps 1
  let coll := capGet caps 2
  let vars1 := addSet var σ.known_vars
  let σ := { σ with known_vars := vars1 }
  let cv ← replaceVars σ.known_vars σ.known_constants coll
  let σ := emit σ (spaces indent ++ "foreach (".toList ++ cv ++ " as $".toList ++
      var ++ ") \x7b".toList)
  pure (pushBlock σ (indent + 4) "foreach".toList, true)

/-- `_handle_switch` (lines 567-572). -/
def handleSwitch (σ : ConvState) (caps : Caps) (indent : Nat) :
    Option (ConvState × Bool) := do
  let cv ← replaceVars σ.known_vars σ.known_constants (capGet caps 1)
  let σ := emit σ (spaces indent ++ "switch (".toList ++ cv ++ ") \x7b".toList)
  let σ := pushBlock σ (indent + 4) "switch".toList
  pure ({ σ with switch_pending := true }, true)

/-- `_handle_switch_case` (lines 574-579); `' ' * (indent - 4)` with
Python's negative repeat giving `''` is truncated `Nat` subtraction. -/
def handleSwitchCase (σ : ConvState) (caps : Caps) (indent : Nat) :
    Option (ConvState × Bool) := do
  let σ := if σ.case_pending then emit σ (spaces (indent - 4) ++ "break;".toList) else σ
  let cv ← replaceVars σ.known_vars σ.known_constants (capGet caps 1)
  let σ := emit σ (spaces indent ++ "case ".toList ++ cv ++ [':'])
  pure ({ σ with case_pending := true }, true)

/-- `_handle_switch_default` (lines 581-586). -/
def handleSwitchDefault (σ : ConvState) (_caps : Caps) (indent : Nat) :
    Option (ConvState × Bool) :=
  let σ := if σ.case_pending then emit σ (spaces (indent - 4) ++ "break;".toList) else σ
  let σ := emit σ (spaces indent ++ "default:".toList)
  some ({ σ with case_pending := true }, true)

/-- `re.sub(r'f"(.+?)"', r'"\1"', args)` of `_handle_function_call`
(line 592). -/
def fstrUnescapePat : Pat :=
  [pLit "f\"", pGrp 1 anyChar (.plus false), pLit "\""]

/-- `_handle_function_call` (lines 588-594). -/
def handleFunctionCall (σ : ConvState) (caps : Caps) (indent : Nat) :
    Option (ConvState × Bool) := do
  let fn := capGet caps 1
  let args0 := capGet caps 2
  let args :=
    if fn = "fwrite".toList then
      subAll fstrUnescapePat (fun cs => '"' :: capGet cs 1 ++ ['"']) args0
    else args0
  let av ← replaceVars σ.known_vars σ.known_constants args
  pure (emit σ (spaces indent ++ fn ++ ['('] ++ av ++ ");".toList), true)

/-- Rule → handler (the handler half of the `_register_handlers`
table). -/
def applyRule (σ : ConvState) (r : Rule) (caps : Caps) (indent : Nat) :
    Option (ConvState × Bool) :=
  match r with
  | .rImport => handleImport σ caps indent
  | .rFunc => handleFunc σ caps indent
  | .rAnonShort => handleAnonFnShort σ caps indent
  | .rAnonLong => handleAnonFnLong σ caps indent
  | .rWith => handleWith σ caps indent
  | .rMatchAssign => handleMatchAssignment σ caps indent
  | .rMatchReturn => handleMatchReturn σ caps indent
  | .rCase => handleCase σ caps indent
  | .rDefault => handleDefault σ caps indent
  | .rInput => handleInput σ caps indent
  | .rTernary => handleTernary σ caps indent
  | .rDo => handleDo σ caps indent
  | .rWhileColon => handleWhile σ caps indent
  | .rWhileBare => handleWhile σ caps indent
  | .rConstant => handleConstant σ caps indent
  | .rAssign => handleAssignment σ caps indent
  | .rReturn => handleReturn σ caps indent
  | .rBreak => handleBreak σ caps indent
  | .rContinue => handleContinue σ caps indent
  | .rPass => handlePass σ caps indent
  | .rPrint => handlePrint σ caps indent
  | .rIf => handleIf σ caps indent
  | .rElif => handleElif σ caps indent
  | .rElse => handleElse σ caps indent
  | .rForRange => handleForRange σ caps indent
  | .rForeach => handleForeach σ caps indent
  | .rSwitch => handleSwitch σ caps indent
  | .rSwitchCase => handleSwitchCase σ caps indent
  | .rSwitchDefault => handleSwitchDefault σ caps indent
  | .rFuncCall => handleFunctionCall σ caps indent

/-! ### The driver (`convert`, lines 596-686) -/

/-- The `if not done:` fallback (lines 640-646): a trailing colon opens
a generic block; otherwise the line is rewritten and emitted as a
statement (where `_replace_vars` can raise on a malformed f-string). -/
def fallbackLine (σ : ConvState) (stripped : Str) (indent : Nat) :
    Option ConvState :=
  if endsWith stripped [':'] then
    some (pushBlock (emit σ (spaces indent ++ stripped.dropLast ++ " \x7b".toList))
      (indent + 4) "block".toList)
  else do
    let rv ← replaceVars σ.known_vars σ.known_constants stripped
    pure (emit σ (spaces indent ++ rv ++ [';']))

/-- One iteration of the line loop (lines 613-648): blank lines and
comment lines short-circuit before `_adjust_indent`; otherwise the
indent tracker runs, then the first matching recognizer's handler,
then (when nothing declared the line done) the fallback. -/
def processLine (σ : ConvState) (line : Str) : Option ConvState :=
  let raw := rstrip line
  let indent := line.length - (lstrip line).length
  if strip raw = [] then
    some { σ with php_lines := σ.php_lines ++ [[]] }
  else if isPfx ['#'] (strip raw) then
    let comment := strip ((strip raw).drop 1)
    some { σ with php_lines := σ.php_lines ++ [spaces indent ++ "// ".toList ++ comment] }
  else
    let σ := adjustIndent σ indent
    let stripped := strip raw
    match classify stripped with
    | some (r, caps) => do
      let (σ, done) ← applyRule σ r caps indent
      if done then pure σ else fallbackLine σ stripped indent
    | none => fallbackLine σ stripped indent

/-- Fold of `processLine` over the input lines. -/
def processLines : ConvState → List Str → Option ConvState
  | σ, [] => some σ
  | σ, l :: ls => do processLines (← processLine σ l) ls

/-- The closer-emission branch chain of one flush iteration
(lines 662-684): identical to `adjustCloseEmit` except that a pending
do-block is closed with `'} while (false);'`. -/
def eofCloseEmit (bt : Option Str) (lvl : Nat) (σ : ConvState) : ConvState :=
  if bt = some "do".toList ∧ σ.do_while_pending then
    { σ with
      php_lines := σ.php_lines ++ [spaces (lvl - 4) ++ "\x7d while (false);".toList],
      do_while_pending := false }
  else if bt = some "with".toList then
    match lookupWith σ.with_vars lvl with
    | some (base, vn) =>
      { σ with php_lines := σ.php_lines ++
          [spaces base ++ "\x7d finally \x7b".toList,
           spaces (base + 4) ++ "if (isset($".toList ++ vn ++
             ") && is_resource($".toList ++ vn ++ ")) \x7b".toList,
           spaces (base + 8) ++ "fclose($".toList ++ vn ++ ");".toList,
           spaces (base + 4) ++ ['\x7d'],
           spaces base ++ ['\x7d']] }
    | none => σ
  else if bt = some "anon_fn".toList then
    { σ with php_lines := σ.php_lines ++ [spaces lvl ++ "\x7d;".toList] }
  else if σ.case_pending then
    { σ with
      php_lines := σ.php_lines ++
        [spaces lvl ++ "break;".toList, spaces lvl ++ ['\x7d']],
      case_pending := false }
  else if σ.switch_pending then
    { σ with
      php_lines := σ.php_lines ++ [spaces lvl ++ ['\x7d']],
      switch_pending := false }
  else
    { σ with php_lines := σ.php_lines ++ [spaces lvl ++ ['\x7d']] }

/-- The end-of-input flush (`while len(self.indent_stack) > 1`,
lines 655-684), fuel-driven like `_adjust_indent`. -/
def eofFlushF : Nat → ConvState → ConvState
  | 0, σ => σ
  | fuel + 1, σ =>
    match σ.indent_stack with
    | lvl :: r1 :: rest =>
      let bt : Option Str := σ.block_types.head?
      let σ := { σ with indent_stack := r1 :: rest, block_types := σ.block_types.tail }
      eofFlushF fuel (eofCloseEmit bt lvl (finalizeMatch σ))
    | _ => σ

/-- The state re-initialization at the top of `convert`
(lines 597-609).  `switch_pending` and `case_pending` are NOT in that
list — they carry over from the previous call on the same instance. -/
def reinitState (σ : ConvState) : ConvState :=
  { block_types := [], known_vars := [], known_constants := [],
    indent_stack := [0], do_while_pending := false,
    switch_pending := σ.switch_pending,
    case_pending := σ.case_pending,
    php_lines := ["<?php".toList, "// Generated by DSL to PHP converter".toList],
    current_match_var := none, match_cases := [], with_vars := [],
    current_match_type := none, current_match_dest := none }

/-- `DSLConverter.convert` on an instance in state `σ0` (lines
596-686): re-initialize, process each line, finalize a pending match,
flush still-open blocks, join with newlines.  Returns the output text
and the instance state after the call; `none` when a Python exception
escapes. -/
def convertFrom (σ0 : ConvState) (code : Str) : Option (Str × ConvState) := do
  let σ := reinitState σ0
  let σ ← processLines σ (splitLines code)
  let σ := if σ.current_match_var.isSome then finalizeMatch σ else σ
  let σ := eofFlushF σ.indent_stack.length σ
  pure (List.intercalate ['\n'] σ.php_lines, σ)

/-- `DSLConverter().convert(code)` on a fresh instance, at `String`
type. -/
def convert (code : String) : Option String :=
  (convertFrom initState code.toList).map (fun p => String.mk p.1)

/-! ### Specification-side definitions

These formalise the vocabulary of the claims (prefix states, the stack
invariant, bare identifier occurrences, the map-entry description) and
are deliberately separate from the source embedding above. -/

/-- The engine state after `convert` has processed the first `n` input
lines (the re-initialization included), for a fresh instance. -/
def stateAfterPfx (code : Str) (n : Nat) : Option ConvState :=
  processLines (reinitState initState) ((splitLines code).take n)

/-- Strict decrease head-to-tail, i.e. strictly increasing
bottom-to-top for a stack whose top is the list head (Boolean form,
agreeing with `List.Chain' (fun a b => b < a)`). -/
def strictlyDecreasing : List Nat → Bool
  | [] => true
  | [_] => true
  | a :: b :: t => b < a && strictlyDecreasing (b :: t)

/-- The stack property exactly as the claim states it, in executable
form: strictly increasing bottom-to-top, contains the root `0`, and
the indentation stack and the block-kind stack have equal length. -/
def specStackClaim (σ : ConvState) : Bool :=
  strictlyDecreasing σ.indent_stack &&
  σ.indent_stack.contains 0 &&
  σ.indent_stack.length == σ.block_types.length

/-- The corrected stack invariant: strictly increasing bottom-to-top,
bottom element exactly the root `0`, and the indentation stack one
longer than the block-kind stack (the root level is not paired with a
block kind); `do_while_pending` is clear.  Holds for inputs with no
do-block opener. -/
abbrev StackInv (σ : ConvState) : Prop :=
  List.Chain' (fun a b => b < a) σ.indent_stack ∧
  σ.indent_stack.getLast? = some 0 ∧
  σ.indent_stack.length = σ.block_types.length + 1 ∧
  σ.do_while_pending = false

/-- The decomposition of a non-string span into maximal word-character
runs and maximal separator runs, in order (spec side). -/
def chunksF : Nat → Str → List Str
  | 0, _ => []
  | _ + 1, [] => []
  | fuel + 1, c :: cs =>
    if wordChar c then
      (c :: cs.takeWhile wordChar) :: chunksF fuel (cs.dropWhile wordChar)
    else
      (c :: cs.takeWhile (fun d => !wordChar d)) ::
        chunksF fuel (cs.dropWhile (fun d => !wordChar d))

def chunks (s : Str) : List Str := chunksF s.length s

/-- What the variable-substitution stage is specified to do to one
chunk: a word run headed by a letter or underscore that is a known
variable and not a known constant gets the `$` sigil; known constants
and everything else stay unchanged. -/
def chunkImage (vars consts : List Str) (ch : Str) : Str :=
  match ch with
  | [] => []
  | c :: _ =>
    if wordChar c then
      if identStart c && vars.contains ch && !consts.contains ch then '$' :: ch
      else ch
    else ch

/-- A bare (un-sigiled) occurrence of identifier `id` in a list of
chunks: some chunk equals `id` and the preceding chunk does not end in
`'$'`. -/
def bareInChunks (id : Str) (prevLast : Option Char) : List Str → Bool
  | [] => false
  | ch :: rest =>
    (ch = id && prevLast ≠ some '$') || bareInChunks id ch.getLast? rest

/-- A bare occurrence of identifier `id` somewhere in the non-quoted
spans of an output line. -/
def bareIdentOccursIn (id : Str) (line : Str) : Bool :=
  ((splitStrParts [] false none line).filter (fun p => !isQuotedPart p)).any
    (fun p => bareInChunks id none (chunks p))

/-- The spec's description of one well-formed map-literal element: the
key (whitespace-stripped, then double- then single-quote-stripped) is
re-quoted and the value is rewritten by the Expression Rewriter. -/
def mapEntryOf (rv : Str → Option Str) (p : Str) : Option Str :=
  match splitOnce [':'] p with
  | [k, val] =>
    (rv (strip val)).map (fun rvv =>
      '\'' :: stripChars ['\''] (stripChars ['"'] (strip k)) ++ '\'' ::
        " => ".toList ++ rvv)
  | _ => none

/-- Effectful map over `Option`, written out explicitly. -/
def mapMO (f : Str → Option Str) : List Str → Option (List Str)
  | [] => some []
  | p :: ps => do
    let b ← f p
    let bs ← mapMO f ps
    pure (b :: bs)

/-! ## The claims -/

/-- C1: the claim says `convert` is total — no input string causes an
exception to escape `DSLConverter.convert`.  The code refutes it: on
`x = f""`, `_convert_f_string` evaluates `parts[0]` on an empty list
(IndexError), and on the nested do/while input below, `_handle_while`
reads the unbound local `lvl` after the `if self.indent_stack:` guard
skipped the pop (UnboundLocalError); both exceptions escape `convert`
(modelled as `none`). -/
theorem C1_convert_can_raise :
    convert "x = f\"\"" = none ∧
    convert "do:\nx = 1\nwhile x\ndo:\ny = 2\nwhile y" = none := by
  exact ⟨by decide, by decide⟩

/-- C5: the claim says every opened block has its closing syntax
emitted by the time `convert` returns.  Counter-evaluation: a do-block
whose while-clause never arrives is popped silently by
`_adjust_indent` (its stack entry absorbed while `do_while_pending`
stays set), so nothing remains for the end-of-input flush to close —
the emitted `do {` has no closing `}` (nor any `while`) anywhere in
the output. -/
theorem C5_do_block_left_unclosed :
    convert "do:\nx = 1\ny = 2" =
      some "<?php\n// Generated by DSL to PHP converter\ndo \x7b\n$x = 1;\n$y = 2;" ∧
    (convert "do:\nx = 1\ny = 2").map
      (fun t => t.toList.contains '\x7d' || containsSub "while".toList t.toList) =
      some false := by
  exact ⟨by decide, by decide⟩

/-- C6 (counterexample): running `convert` twice on the same text on
the SAME instance is not equivalent to two fresh instances —
`case_pending` leaks across calls (it is not re-initialized at lines
596-609) and changes the second run's output. -/
theorem C6_counterexample :
    ((convertFrom initState "switch x:\ncase 1:\nz = 1".toList).bind (fun p =>
      (convertFrom p.2 "switch x:\ncase 1:\nz = 1".toList).map (fun q =>
        decide (q.1 = p.1)))) = some false := by
  decide

/-- C6 (amended): `convert` is a deterministic pure function of the
input text for fresh instances; `convert` on any used instance whose
prior call left the two non-re-initialized flags `switch_pending` and
`case_pending` clear agrees with a fresh instance on every input
(whereas a set `case_pending` leaks and changes the output, as the
counterexample shows). -/
theorem C6_fresh_instance_deterministic (σ0 : ConvState) (code : Str)
    (h1 : σ0.switch_pending = false) (h2 : σ0.case_pending = false) :
    convertFrom σ0 code = convertFrom initState code := by
  have hr : reinitState σ0 = reinitState initState := by
    simp [reinitState, h1, h2, initState]
  simp [convertFrom, hr]

/-- C6 witness: the amended theorem applied at a genuinely used
instance state — the one a prior `convert` call on `x = 1` leaves
behind (non-empty known-variable set and output buffer, flags clear) —
re-running on the input `y = 2`. -/
theorem C6_witness :
    ((convertFrom initState "x = 1".toList).getD ([], initState)).2.switch_pending
      = false ∧
    ((convertFrom initState "x = 1".toList).getD ([], initState)).2.case_pending
      = false ∧
    ((convertFrom initState "x = 1".toList).getD ([], initState)).2.known_vars
      = ["x".toList] ∧
    convertFrom ((convertFrom initState "x = 1".toList).getD ([], initState)).2
        "y = 2".toList =
      convertFrom initState "y = 2".toList :=
  ⟨by decide, by decide, by decide,
    C6_fresh_instance_deterministic
      ((convertFrom initState "x = 1".toList).getD ([], initState)).2
      "y = 2".toList (by decide) (by decide)⟩

/-- C7: the concrete pattern-match example — discriminant `x`, one
case `1 or 2: "a"`, a default `"b"`, assigned to `y` — finalizes into
the claimed assignment with both values comma-joined and the default
clause last, and finalization is a no-op whenever the accumulator has
no discriminant or an empty case list. -/
theorem C7_match_finalization :
    convert "y = match x:\n    case 1 or 2: \"a\"\n    default: \"b\"" =
      some ("<?php\n// Generated by DSL to PHP converter\n" ++
        "$y = match ($x) \x7b\n    1, 2 => \"a\",\n    default => \"b\",\n\x7d;") ∧
    ∀ σ : ConvState, σ.current_match_var = none ∨ σ.match_cases = [] →
      finalizeMatch σ = σ := by
  constructor
  · decide
  · intro σ h
    rcases h with h | h
    · simp [finalizeMatch, h]
    · cases hv : σ.current_match_var <;> simp [finalizeMatch, hv, h]

/-- C7 witness: the no-op half of the theorem at a concrete state. -/
theorem C7_witness : finalizeMatch initState = initState :=
  C7_match_finalization.2 initState (Or.inl rfl)

/-- C2 (counterexample): on `do:` / `x = 1` / `while x`, the claimed
stack property fails.  After one line the indentation stack has length
2 while the block-kind stack has length 1 (they are never equal: the
root `0` is unpaired), and after all three lines the indentation stack
is empty — it does not contain the root element 0 (the bare `while`
popped the root while `do_while_pending` was still set). -/
theorem C2_counterexample :
    ((stateAfterPfx "do:\nx = 1\nwhile x".toList 1).map specStackClaim) =
      some false ∧
    ((stateAfterPfx "do:\nx = 1\nwhile x".toList 3).map
      (fun σ => σ.indent_stack.contains 0)) = some false := by
  exact ⟨by decide, by decide⟩

/-- C3 (counterexample): a `case VALUES: RESULT` line outside any open
match is NOT emitted as a switch case label.  The dispatch loop breaks
at the first matching pattern regardless of the handler's boolean, so
after `_handle_case` declines, the line goes to the generic fallback:
the output is the passthrough statement `case 1: x;` (semicolon, not a
label) and `case_pending` is not set. -/
theorem C3_counterexample :
    (convertFrom initState "case 1: x".toList).map (fun p =>
      (String.mk p.1, p.2.case_pending)) =
    some ("<?php\n// Generated by DSL to PHP converter\ncase 1: x;", false) := by
  decide

/-- C8 (counterexample): `print(items)` with `items` in the
known-variable set is NOT implode-wrapped: `_handle_print` looks for a
literal `$`-sigiled identifier (`re.search(r'\$[a-zA-Z_][a-zA-Z0-9_]*$', ...)`)
and dialect input names variables bare, so the wrap never fires for a
bare known collection variable. -/
theorem C8_counterexample :
    (convertFrom initState "items = [1, 2]\nprint(items)".toList).map (fun p =>
      (String.mk p.1, containsSub "implode".toList p.1)) =
    some ("<?php\n// Generated by DSL to PHP converter\n$items = [1, 2];\necho $items;",
      false) := by
  decide

/-- C9 (counterexample): the map-literal split is NOT on top-level
commas — `_convert_value` splits on every comma with no bracket
awareness.  On `{a: [1, 2]}` the single top-level element is
well-formed, so the claim demands `['a' => [1, 2]]` (the value `[1, 2]`
rewrites to itself), but the code splits inside the nested list,
truncates the value to `[1` and drops the `2]` fragment. -/
theorem C9_counterexample :
    convertValue [] [] "\x7ba: [1, 2]\x7d".toList = some "['a' => [1]".toList ∧
    replaceVars [] [] "[1, 2]".toList = some "[1, 2]".toList ∧
    convertValue [] [] "\x7ba: [1, 2]\x7d".toList ≠ some "['a' => [1, 2]]".toList := by
  exact ⟨by decide, by decide, by decide⟩

/-- C10: a blank or comment input line appends exactly one output line
(the empty line, or the comment re-emitted as `// ...` at the same
indentation) and leaves every other component of the state — both
stacks, both identifier sets, the match accumulator, the with-vars map
and all pending flags — unchanged; in particular it closes no blocks,
because these lines short-circuit before `_adjust_indent`. -/
theorem C10_blank_comment_frame (σ : ConvState) (line : Str)
    (h : strip (rstrip line) = [] ∨ isPfx ['#'] (strip (rstrip line)) = true) :
    processLine σ line = some { σ with php_lines := σ.php_lines ++
      [if strip (rstrip line) = [] then ([] : Str) else
        spaces (line.length - (lstrip line).length) ++ "// ".toList ++
          strip ((strip (rstrip line)).drop 1)] } := by
  by_cases hb : strip (rstrip line) = []
  · simp [processLine, hb]
  · rcases h with h | h
    · exact absurd h hb
    · simp [processLine, hb, h]

/-- C10 witness: the frame theorem applied to a concrete comment line
(whose indentation is lower than any open block's). -/
theorem C10_witness :
    processLine initState "# note".toList =
      some { initState with php_lines := initState.php_lines ++
        [if strip (rstrip "# note".toList) = [] then ([] : Str) else
          spaces ("# note".toList.length - (lstrip "# note".toList).length) ++
            "// ".toList ++ strip ((strip (rstrip "# note".toList)).drop 1)] } :=
  C10_blank_comment_frame initState "# note".toList (Or.inr (by decide))

/-! ### Supporting lemmas -/

/-- `containsSub` on the empty string holds only for the empty
pattern. -/
theorem containsSub_nil (sep : Str) (h : sep ≠ []) :
    containsSub sep [] = false := by
  cases sep with
  | nil => exact absurd rfl h
  | cons a as => simp [containsSub, isPfx]

/-- A string containing a non-empty separator splits (with maxsplit 1)
into exactly two parts. -/
theorem splitOnce_two_of_contains (sep s : Str) (hsep : sep ≠ [])
    (h : containsSub sep s = true) : ∃ a b, splitOnce sep s = [a, b] := by
  induction s with
  | nil => rw [containsSub_nil sep hsep] at h; exact absurd h (by simp)
  | cons c cs ih =>
    by_cases hp : isPfx sep (c :: cs) = true
    · refine ⟨[], (c :: cs).drop sep.length, ?_⟩
      have hl : sep.length ≥ 1 := by
        cases sep with
        | nil => exact absurd rfl hsep
        | cons a as => simp
      simp [splitOnce, splitOnceF, hl, hp]
    · have hcs : containsSub sep cs = true := by
        simp only [containsSub, Bool.or_eq_true] at h
        rcases h with h | h
        · exact absurd h hp
        · exact h
      obtain ⟨a, b, hab⟩ := ih hcs
      refine ⟨c :: a, b, ?_⟩
      have : splitOnceF sep cs.length cs = [a, b] := hab
      simp [splitOnce, splitOnceF, hp, this]

/-- The map-literal loop of `_convert_value` keeps exactly the
elements containing a `:` separator, in order, each contributing the
spec-described quoted-key/rewritten-value entry. -/
theorem mapEntries_eq_filter (rv : Str → Option Str) (parts : List Str) :
    mapEntries rv parts =
      mapMO (mapEntryOf rv) (parts.filter (fun p => containsSub [':'] p)) := by
  induction parts with
  | nil => simp [mapEntries, mapMO]
  | cons p ps ih =>
    by_cases hc : containsSub [':'] p = true
    · obtain ⟨k, val, hkv⟩ := splitOnce_two_of_contains [':'] p (by simp) hc
      simp only [mapEntries, hc, if_true, hkv, List.filter_cons, mapEntryOf, ih]
      cases hrv : rv (strip val) <;>
        cases hrest : mapMO (mapEntryOf rv) (ps.filter (fun p => containsSub [':'] p)) <;>
          simp [hrv, hrest, mapMO, mapEntryOf, hkv, hc]
    · simp only [mapEntries, hc, if_false, List.filter_cons, ih]
      simp [hc]

/-- C9 (amended): for a map-literal right-hand side, `_convert_value`
splits the inner text on EVERY comma (no bracket awareness), silently
drops every element without a `:` separator, and builds the map
construction from the remaining elements in order, each with its key
stripped and quoted and its value rewritten; no failure arises from
malformed entries (only the expression rewriter itself can fail, on a
malformed f-string value). -/
theorem C9_map_literal_drops_malformed (vars consts : List Str) (v : Str)
    (h1 : isPfx ['\x7b'] (strip v) = true)
    (h2 : endsWith (strip v) ['\x7d'] = true) :
    convertValue vars consts v =
      (mapMO (mapEntryOf (replaceVars vars consts))
          (((splitOnSub [','] (((strip v).drop 1).dropLast)).map strip).filter
            (fun p => containsSub [':'] p))).map
        (fun kv => '[' :: List.intercalate ", ".toList kv ++ [']']) := by
  have hlb : isPfx ['['] (strip v) = false := by
    cases hs : strip v with
    | nil => rw [hs] at h1; simp [isPfx] at h1
    | cons c cs =>
      rw [hs] at h1
      simp only [isPfx, Bool.and_eq_true, decide_eq_true_eq] at h1
      simp [isPfx, ← h1.1]
  simp only [convertValue, hlb, Bool.false_and, Bool.and_self, h1, h2, Bool.true_and,
    if_false, if_true, mapEntries_eq_filter]
  cases hme : mapMO (mapEntryOf (replaceVars vars consts))
      (((splitOnSub [','] (((strip v).drop 1).dropLast)).map strip).filter
        (fun p => containsSub [':'] p)) <;>
    simp [hme]

/-- A successful dispatch comes from some (pattern, rule) entry of the
ordered list whose pattern fully matches. -/
theorem classifyGo_mem (l : List (Pat × Rule)) (s : Str) (r : Rule) (caps : Caps)
    (h : classifyGo l s = some (r, caps)) :
    ∃ p, (p, r) ∈ l ∧ fullMatch p s = some caps := by
  induction l with
  | nil => simp [classifyGo] at h
  | cons pr rest ih =>
    rcases pr with ⟨p, r'⟩
    simp only [classifyGo] at h
    cases hfm : fullMatch p s with
    | some caps' =>
      rw [hfm] at h
      simp only [Option.some.injEq, Prod.mk.injEq] at h
      exact ⟨p, by simp [h.1], by rw [hfm, h.2]⟩
    | none =>
      rw [hfm] at h
      obtain ⟨p', hp, hf⟩ := ih h
      exact ⟨p', List.mem_cons_of_mem _ hp, hf⟩

/-- The only recognizer tagged `rCase` is the match-case pattern
`^case\s+(.+?):\s*(.+)$`. -/
theorem recognizers_rCase (p : Pat) (h : (p, Rule.rCase) ∈ recognizers) :
    p = [pLit "case", spP, pGrp 1 anyChar (.plus false), pLit ":", spS,
         pGrp 2 anyChar (.plus true)] := by
  simp only [recognizers, List.mem_cons, Prod.mk.injEq, List.not_mem_nil,
    or_false, and_false, false_or, reduceCtorEq, and_true] at h
  exact h

/-- The only recognizer tagged `rDo` is the literal `^do:$`. -/
theorem recognizers_rDo (p : Pat) (h : (p, Rule.rDo) ∈ recognizers) :
    p = [pLit "do:"] := by
  simp only [recognizers, List.mem_cons, Prod.mk.injEq, List.not_mem_nil,
    or_false, and_false, false_or, reduceCtorEq, and_true] at h
  exact h

/-- `take`-equality gives the Boolean prefix test. -/
theorem isPfx_of_take_eq (l : Str) : ∀ s : Str, s.take l.length = l → isPfx l s = true := by
  induction l with
  | nil => intro s _; simp [isPfx]
  | cons a as ih =>
    intro s h
    cases s with
    | nil => simp at h
    | cons b bs =>
      simp only [List.length_cons, List.take_succ_cons, List.cons.injEq] at h
      simp [isPfx, h.1, ih bs h.2]

/-- A pattern that opens with a literal piece only matches strings
starting with that literal. -/
theorem fullMatch_lit_isPfx (l : Str) (g : Option Nat) (rest : Pat) (s : Str)
    (caps : Caps) (h : fullMatch (⟨.lit l, g⟩ :: rest) s = some caps) :
    isPfx l s = true := by
  simp only [fullMatch, goM] at h
  by_cases ht : s.take l.length = l
  · exact isPfx_of_take_eq l s ht
  · rw [if_neg ht] at h
    simp at h

/-- A full match of the literal-only pattern `^do:$` forces the line
to be exactly `do:`. -/
theorem fullMatch_single_lit (l : Str) (g : Option Nat) (s : Str) (caps : Caps)
    (h : fullMatch [⟨.lit l, g⟩] s = some caps) : s = l := by
  simp only [fullMatch, goM] at h
  by_cases ht : s.take l.length = l
  · rw [if_pos ht] at h
    by_cases he : s.drop l.length = []
    · calc s = s.take l.length ++ s.drop l.length := by rw [List.take_append_drop]
        _ = l := by rw [ht, he, List.append_nil]
    · rw [show (s.drop l.length).isEmpty = false by
          cases hd : s.drop l.length <;> simp_all [List.isEmpty]] at h
      simp at h
  · rw [if_neg ht] at h
    simp at h

/-- C3 (amended): a `case VALUES: RESULT` line (one the match-case
recognizer fires on first) processed while no pattern-match
accumulator is open — after the indent tracker has run — is not
rejected, but it is not handled as a switch case label either: the
dispatch loop stops at the first matching pattern regardless of the
handler's result, so the declined line goes to the generic fallback
(`case_pending` is not set): a line ending with a colon is emitted as
a generic block opener (the line minus its colon plus an opening
brace, pushing a generic block at indent + 4), any other line as a
single variable-rewritten, semicolon-terminated statement. -/
theorem C3_case_outside_match_fallback (σ : ConvState) (line s : Str) (caps : Caps)
    (hs : strip (rstrip line) = s)
    (hc : classify s = some (.rCase, caps))
    (hm : (adjustIndent σ (line.length - (lstrip line).length)).current_match_var = none) :
    processLine σ line =
      (if endsWith s [':'] = true then
        some (pushBlock
          (emit (adjustIndent σ (line.length - (lstrip line).length))
            (spaces (line.length - (lstrip line).length) ++ s.dropLast ++
              " \x7b".toList))
          ((line.length - (lstrip line).length) + 4) "block".toList)
      else
        (replaceVars (adjustIndent σ (line.length - (lstrip line).length)).known_vars
            (adjustIndent σ (line.length - (lstrip line).length)).known_constants s).map
          (fun rv => emit (adjustIndent σ (line.length - (lstrip line).length))
            (spaces (line.length - (lstrip line).length) ++ rv ++ [';']))) := by
  have hpfx : isPfx "case".toList s = true := by
    obtain ⟨p, hmem, hfm⟩ := classifyGo_mem _ _ _ _ hc
    rw [recognizers_rCase p hmem] at hfm
    exact fullMatch_lit_isPfx _ _ _ _ _ hfm
  have hne : ¬(s = []) := by
    intro he
    rw [he] at hpfx
    simp [isPfx] at hpfx
  have hnh : isPfx ['#'] s = false := by
    cases s with
    | nil => exact absurd rfl hne
    | cons c cs =>
      simp only [isPfx, Bool.and_eq_true, decide_eq_true_eq] at hpfx
      simp [isPfx, ← hpfx.1]
  simp only [processLine, hs, hne, if_false, hnh, Bool.false_eq_true, hc]
  simp only [applyRule, handleCase, hm]
  simp only [Option.bind_eq_bind, Option.some_bind, Bool.false_eq_true, if_false,
    fallbackLine]
  split
  · rfl
  · cases hrv : replaceVars (adjustIndent σ (line.length - (lstrip line).length)).known_vars
        (adjustIndent σ (line.length - (lstrip line).length)).known_constants s <;>
      simp [hrv]

/-- C3 witness: the amended theorem at the concrete colon-terminated
line `case 1: x:`, the branch where the fallback opens a generic
block. -/
theorem C3_witness :
    strip (rstrip "case 1: x:".toList) = "case 1: x:".toList ∧
    classify "case 1: x:".toList = some (.rCase,
      [(none, "case".toList), (none, [' ']), (some 1, ['1']), (none, [':']),
       (none, [' ']), (some 2, "x:".toList)]) ∧
    processLine initState "case 1: x:".toList =
      (if endsWith "case 1: x:".toList [':'] = true then
        some (pushBlock
          (emit (adjustIndent initState ("case 1: x:".toList.length -
              (lstrip "case 1: x:".toList).length))
            (spaces ("case 1: x:".toList.length -
                (lstrip "case 1: x:".toList).length) ++
              "case 1: x:".toList.dropLast ++ " \x7b".toList))
          (("case 1: x:".toList.length - (lstrip "case 1: x:".toList).length) + 4)
          "block".toList)
      else
        (replaceVars (adjustIndent initState ("case 1: x:".toList.length -
              (lstrip "case 1: x:".toList).length)).known_vars
            (adjustIndent initState ("case 1: x:".toList.length -
              (lstrip "case 1: x:".toList).length)).known_constants
            "case 1: x:".toList).map
          (fun rv => emit (adjustIndent initState ("case 1: x:".toList.length -
              (lstrip "case 1: x:".toList).length))
            (spaces ("case 1: x:".toList.length -
                (lstrip "case 1: x:".toList).length) ++ rv ++ [';']))) :=
  ⟨by decide, by decide,
    C3_case_outside_match_fallback initState "case 1: x:".toList "case 1: x:".toList
      [(none, "case".toList), (none, [' ']), (some 1, ['1']), (none, [':']),
       (none, [' ']), (some 2, "x:".toList)]
      (by decide) (by decide) (by decide)⟩

/-- Characters of a prefix occur in the string. -/
theorem isPfx_mem (p : Str) : ∀ s : Str, isPfx p s = true → ∀ d ∈ p, d ∈ s := by
  induction p with
  | nil => intro s _ d hd; simp at hd
  | cons a as ih =>
    intro s hp d hd
    cases s with
    | nil => simp [isPfx] at hp
    | cons b bs =>
      simp only [isPfx, Bool.and_eq_true, decide_eq_true_eq] at hp
      rcases List.mem_cons.mp hd with h | h
      · simp [h, ← hp.1]
      · exact List.mem_cons_of_mem _ (ih bs hp.2 d h)

/-- Characters of a contained substring occur in the string. -/
theorem containsSub_mem (p : Str) : ∀ s : Str, containsSub p s = true →
    ∀ d ∈ p, d ∈ s := by
  intro s
  induction s with
  | nil =>
    intro h d hd
    cases p with
    | nil => simp at hd
    | cons a as => simp [containsSub, isPfx] at h
  | cons c cs ih =>
    intro h d hd
    simp only [containsSub, Bool.or_eq_true] at h
    rcases h with h | h
    · exact isPfx_mem p (c :: cs) h d hd
    · exact List.mem_cons_of_mem _ (ih h d hd)

/-- Contrapositive form: a pattern with a character missing from `s`
is not contained in `s`. -/
theorem containsSub_eq_false_of_not_mem (p s : Str) (d : Char) (hd : d ∈ p)
    (hs : d ∉ s) : containsSub p s = false := by
  cases h : containsSub p s with
  | false => rfl
  | true => exact absurd (containsSub_mem p s h d hd) hs

/-- `str.replace` is the identity when the pattern does not occur. -/
theorem replaceSubF_id (pat rep : Str) (h0 : pat ≠ []) :
    ∀ (fuel : Nat) (s : Str), containsSub pat s = false →
      replaceSubF pat rep fuel s = s := by
  intro fuel
  induction fuel with
  | zero => intro s _; rfl
  | succ n ih =>
    intro s hc
    cases s with
    | nil => rfl
    | cons c cs =>
      simp only [containsSub, Bool.or_eq_false_iff] at hc
      simp [replaceSubF, hc.1, ih cs hc.2]

theorem replaceSub_id (pat rep s : Str) (h0 : pat ≠ [])
    (hc : containsSub pat s = false) : replaceSub pat rep s = s :=
  replaceSubF_id pat rep h0 s.length s hc

/-- A successful backtracking search comes from one of the
candidates. -/
theorem firstSome_eq_some {α β : Type} (f : α → Option β) (l : List α) (b : β)
    (h : firstSome f l = some b) : ∃ a ∈ l, f a = some b := by
  induction l with
  | nil => simp [firstSome] at h
  | cons a as ih =>
    simp only [firstSome] at h
    cases hf : f a with
    | some b' =>
      simp only [hf] at h
      simp only [Option.some.injEq] at h
      exact ⟨a, by simp, by rw [hf, h]⟩
    | none =>
      simp only [hf] at h
      obtain ⟨a', ha, hfa⟩ := ih h
      exact ⟨a', List.mem_cons_of_mem _ ha, hfa⟩

/-- A pattern whose second piece is a literal starting with `d` can
only match text containing `d` (first piece a character class). -/
theorem goM_cls_lit_mem (ex : Bool) (cc : Char → Bool) (q : Quant) (g g' : Option Nat)
    (d : Char) (l : Str) (rest : Pat) (s : Str) (r : Caps × Str)
    (h : goM ex (⟨.cls cc q, g⟩ :: ⟨.lit (d :: l), g'⟩ :: rest) s = some r) :
    d ∈ s := by
  simp only [goM] at h
  obtain ⟨k, _, hk⟩ := firstSome_eq_some _ _ _ h
  by_cases ht : (s.drop k).take (d :: l).length = d :: l
  · exact List.drop_subset k s (isPfx_mem _ _ (isPfx_of_take_eq _ _ ht) d (by simp))
  · rw [if_neg ht] at hk
    simp at hk

/-- `re.sub` is the identity when a character required by the pattern
is absent. -/
theorem subAllF_id (p : Pat) (tmpl : Caps → Str) (d : Char)
    (hp : ∀ t r, goM false p t = some r → d ∈ t) :
    ∀ (fuel : Nat) (s : Str), d ∉ s → subAllF p tmpl fuel s = s := by
  intro fuel
  induction fuel with
  | zero => intro s _; rfl
  | succ n ih =>
    intro s hd
    cases s with
    | nil => rfl
    | cons c cs =>
      have hcs : d ∉ cs := fun h => hd (List.mem_cons_of_mem _ h)
      cases hg : goM false p (c :: cs) with
      | none => simp [subAllF, hg, ih cs hcs]
      | some r => exact absurd (hp _ _ hg) hd

/-- No suffix of a `$`-free string matches the `\$[a-zA-Z_]\w*$`
search of `_handle_print`. -/
theorem searchAtEnd_dollar_false (s : Str) (hd : '$' ∉ s) :
    searchAtEnd dollarIdentPat s = false := by
  rw [searchAtEnd, List.any_eq_false]
  intro i _
  cases hf : fullMatch dollarIdentPat (s.drop i) with
  | none => simp
  | some caps =>
    have : isPfx "$".toList (s.drop i) = true :=
      fullMatch_lit_isPfx _ _ _ _ _ hf
    exact absurd (List.drop_subset i s (isPfx_mem _ _ this '$' (by simp))) hd

/-- The string-span scanner returns a single span when the text
contains no quote characters. -/
theorem splitStrParts_no_quote :
    ∀ (s cur : Str), (∀ c ∈ s, ¬(c = '"' ∨ c = '\'')) →
      splitStrParts cur false none s =
        (if cur ++ s = [] then [] else [cur ++ s]) := by
  intro s
  induction s with
  | nil => intro cur _; simp [splitStrParts]
  | cons c cs ih =>
    intro cur h
    have hc : ¬(c = '"' ∨ c = '\'') := h c (by simp)
    have hcs : ∀ x ∈ cs, ¬(x = '"' ∨ x = '\'') :=
      fun x hx => h x (List.mem_cons_of_mem _ hx)
    have hcb : (c = '"' || c = '\'') = false := by
      simp only [Bool.or_eq_false_iff, decide_eq_false_iff_not]
      exact ⟨fun h1 => hc (Or.inl h1), fun h2 => hc (Or.inr h2)⟩
    simp only [splitStrParts, hcb, Bool.false_and, Bool.false_eq_true, if_false]
    rw [ih (cur ++ [c]) hcs]
    simp [List.append_assoc]

/-- `substIdent` on a single identifier-shaped token in the
known-variable set (and not in the known-constant set) prefixes the
sigil. -/
theorem substIdent_single_run (vars consts : List Str) (c : Char) (cs : Str)
    (hw : ∀ x ∈ c :: cs, wordChar x = true) (hh : identStart c = true)
    (hv : vars.contains (c :: cs) = true) (hc : consts.contains (c :: cs) = false) :
    substIdent vars consts (c :: cs) = '$' :: c :: cs := by
  have htw : cs.takeWhile wordChar = cs :=
    List.takeWhile_eq_self_iff.mpr (fun x hx => hw x (List.mem_cons_of_mem _ hx))
  have hdw : cs.dropWhile wordChar = [] :=
    List.dropWhile_eq_nil_iff.mpr (fun x hx => hw x (List.mem_cons_of_mem _ hx))
  have hwc : wordChar c = true := hw c (by simp)
  have hnil : ∀ fuel, substIdentF vars consts fuel [] = [] := by
    intro fuel; cases fuel <;> rfl
  have hfin : (identStart c && vars.contains (c :: cs) && !consts.contains (c :: cs)) =
      true := by
    rw [hh, hv, hc]
    rfl
  show substIdentF vars consts (c :: cs).length (c :: cs) = '$' :: c :: cs
  simp only [List.length_cons, substIdentF, hwc, if_true, htw, hdw, hfin, hnil]
  simp [hnil]

/-- Prepending a character distinct from the pattern head does not
create an occurrence. -/
theorem containsSub_cons_ne (a : Char) (p : Str) (x : Char) (s : Str) (hne : a ≠ x) :
    containsSub (a :: p) (x :: s) = containsSub (a :: p) s := by
  have : isPfx (a :: p) (x :: s) = false := by
    simp [isPfx, hne]
  simp [containsSub, this]

/-- On a bare identifier-shaped expression (word characters only,
letter/underscore head, no `True`/`False`/`None` fragment) that is a
known variable and not a known constant, the whole Expression Rewriter
pipeline reduces to prefixing the `$` sigil: the method-idiom
rewrites, builtin renames, f-string branch, string-span split and
keyword mapping are all identities there. -/
theorem replaceVars_bare_ident (vars consts : List Str) (c : Char) (cs : Str)
    (hw : ∀ x ∈ c :: cs, wordChar x = true) (hh : identStart c = true)
    (hv : vars.contains (c :: cs) = true) (hc : consts.contains (c :: cs) = false)
    (hT : containsSub "True".toList (c :: cs) = false)
    (hF : containsSub "False".toList (c :: cs) = false)
    (hN : containsSub "None".toList (c :: cs) = false) :
    replaceVars vars consts (c :: cs) = some ('$' :: c :: cs) := by
  have hnm : ∀ d : Char, wordChar d = false → d ∉ c :: cs := fun d hd hmem =>
    absurd (hw d hmem) (by simp [hd])
  have hdot := hnm '.' (by decide)
  have hpar := hnm '(' (by decide)
  have hq := hnm '"' (by decide)
  have hq2 := hnm '\'' (by decide)
  have hsp := hnm ' ' (by decide)
  have hdol := hnm '$' (by decide)
  have h1 : subAll splitIdiomPat splitIdiomTmpl (c :: cs) = c :: cs :=
    subAllF_id _ _ '.'
      (fun t r hg => goM_cls_lit_mem false wordChar _ _ _ '.' "split".toList _ t r hg)
      _ _ hdot
  have h2 : subAll stripIdiomPat stripIdiomTmpl (c :: cs) = c :: cs :=
    subAllF_id _ _ '.'
      (fun t r hg => goM_cls_lit_mem false wordChar _ _ _ '.' "strip".toList _ t r hg)
      _ _ hdot
  have h3 : subAll appendIdiomPat appendIdiomTmpl (c :: cs) = c :: cs :=
    subAllF_id _ _ '.'
      (fun t r hg => goM_cls_lit_mem false wordChar _ _ _ '.' "append".toList _ t r hg)
      _ _ hdot
  have hlen : replaceSub "len(".toList "count(".toList (c :: cs) = c :: cs :=
    replaceSub_id _ _ _ (by simp)
      (containsSub_eq_false_of_not_mem _ _ '(' (by decide) hpar)
  have hopen : replaceSub "open(".toList "fopen(".toList (c :: cs) = c :: cs :=
    replaceSub_id _ _ _ (by simp)
      (containsSub_eq_false_of_not_mem _ _ '(' (by decide) hpar)
  have hint : replaceSub "int(".toList "intval(".toList (c :: cs) = c :: cs :=
    replaceSub_id _ _ _ (by simp)
      (containsSub_eq_false_of_not_mem _ _ '(' (by decide) hpar)
  have hdd : replaceSub "..".toList ".".toList (c :: cs) = c :: cs :=
    replaceSub_id _ _ _ (by simp)
      (containsSub_eq_false_of_not_mem _ _ '.' (by decide) hdot)
  have hfq : isPfx "f\"".toList (c :: cs) = false := by
    cases cs with
    | nil => simp [isPfx]
    | cons d ds =>
      have hd : wordChar d = true := hw d (by simp)
      have hne : ('"' : Char) ≠ d := fun he => by
        rw [← he] at hd
        exact absurd hd (by decide)
      simp [isPfx, hne]
  have hfq2 : isPfx "f'".toList (c :: cs) = false := by
    cases cs with
    | nil => simp [isPfx]
    | cons d ds =>
      have hd : wordChar d = true := hw d (by simp)
      have hne : ('\'' : Char) ≠ d := fun he => by
        rw [← he] at hd
        exact absurd hd (by decide)
      simp [isPfx, hne]
  have hsplitp : splitStrParts [] false none (c :: cs) = [c :: cs] := by
    rw [splitStrParts_no_quote (c :: cs) []
      (fun x hx hor => by
        rcases hor with h | h
        · exact hq (h ▸ hx)
        · exact hq2 (h ▸ hx))]
    simp
  have hcq : ¬(('"' : Char) = c) := fun he => hq (by rw [he]; simp)
  have hcq2 : ¬(('\'' : Char) = c) := fun he => hq2 (by rw [he]; simp)
  have hquot : isQuotedPart (c :: cs) = false := by
    simp [isQuotedPart, isPfx, hcq, hcq2]
  have hnsp : ' ' ∉ '$' :: c :: cs := by
    intro hmem
    rcases List.mem_cons.mp hmem with h | h
    · exact absurd h (by decide)
    · exact hsp h
  have hkT : containsSub "True".toList ('$' :: c :: cs) = false := by
    have e : "True".toList = 'T' :: "rue".toList := rfl
    rw [e, containsSub_cons_ne 'T' "rue".toList '$' (c :: cs) (by decide), ← e]
    exact hT
  have hkF : containsSub "False".toList ('$' :: c :: cs) = false := by
    have e : "False".toList = 'F' :: "alse".toList := rfl
    rw [e, containsSub_cons_ne 'F' "alse".toList '$' (c :: cs) (by decide), ← e]
    exact hF
  have hkN : containsSub "None".toList ('$' :: c :: cs) = false := by
    have e : "None".toList = 'N' :: "one".toList := rfl
    rw [e, containsSub_cons_ne 'N' "one".toList '$' (c :: cs) (by decide), ← e]
    exact hN
  have hkA : containsSub " and ".toList ('$' :: c :: cs) = false :=
    containsSub_eq_false_of_not_mem _ _ ' ' (by decide) hnsp
  have hkO : containsSub " or ".toList ('$' :: c :: cs) = false :=
    containsSub_eq_false_of_not_mem _ _ ' ' (by decide) hnsp
  have hkNot : containsSub " not ".toList ('$' :: c :: cs) = false :=
    containsSub_eq_false_of_not_mem _ _ ' ' (by decide) hnsp
  have hkw : keywordRepl ('$' :: c :: cs) = '$' :: c :: cs := by
    simp only [keywordRepl,
      replaceSub_id "True".toList "true".toList ('$' :: c :: cs) (by simp) hkT,
      replaceSub_id "False".toList "false".toList ('$' :: c :: cs) (by simp) hkF,
      replaceSub_id "None".toList "null".toList ('$' :: c :: cs) (by simp) hkN,
      replaceSub_id " and ".toList " && ".toList ('$' :: c :: cs) (by simp) hkA,
      replaceSub_id " or ".toList " || ".toList ('$' :: c :: cs) (by simp) hkO,
      replaceSub_id " not ".toList " ! ".toList ('$' :: c :: cs) (by simp) hkNot]
  show replaceVarsF vars consts ((c :: cs).length + 1) (c :: cs) = some ('$' :: c :: cs)
  simp only [replaceVarsF, h1, h2, h3, hlen, hopen, hint, hfq, hfq2, Bool.or_self,
    Bool.false_eq_true, if_false, hdd, hsplitp, List.map_cons, List.map_nil, hquot,
    substIdent_single_run vars consts c cs hw hh hv hc, hkw]
  simp

/-- C8 (amended): `_handle_print` never implode-wraps a bare
identifier argument — the wrap requires a literal `$`-sigiled
identifier at the end of the argument text — and for a bare identifier
in the known-variable set (not in the known-constant set, and not
colliding with the keyword substrings) it emits exactly
`echo $ident;`. -/
theorem C8_bare_identifier_not_wrapped (σ : ConvState) (caps : Caps) (indent : Nat)
    (c : Char) (cs : Str) (hcap : capGet caps 1 = c :: cs)
    (hw : ∀ x ∈ c :: cs, wordChar x = true) (hh : identStart c = true)
    (hv : σ.known_vars.contains (c :: cs) = true)
    (hcn : σ.known_constants.contains (c :: cs) = false)
    (hT : containsSub "True".toList (c :: cs) = false)
    (hF : containsSub "False".toList (c :: cs) = false)
    (hN : containsSub "None".toList (c :: cs) = false) :
    handlePrint σ caps indent =
      some (emit σ (spaces indent ++ "echo $".toList ++ (c :: cs) ++ [';']), true) := by
  have hdol : '$' ∉ c :: cs := fun hmem =>
    absurd (hw '$' hmem) (by decide)
  have hse : searchAtEnd dollarIdentPat (c :: cs) = false :=
    searchAtEnd_dollar_false _ hdol
  simp only [handlePrint, hcap, hse, Bool.false_eq_true, if_false]
  rw [replaceVars_bare_ident σ.known_vars σ.known_constants c cs hw hh hv hcn hT hF hN]
  simp [emit]

/-- C8 witness: the amended theorem at the concrete state holding
`items` as a known variable. -/
theorem C8_witness :
    handlePrint { initState with known_vars := ["items".toList] }
        [(some 1, "items".toList)] 0 =
      some (emit { initState with known_vars := ["items".toList] }
        (spaces 0 ++ "echo $".toList ++ ('i' :: "tems".toList) ++ [';']), true) :=
  C8_bare_identifier_not_wrapped _ _ 0 'i' "tems".toList (by decide) (by decide)
    (by decide) (by decide) (by decide) (by decide) (by decide) (by decide)

/-- `chunksF` is fuel-invariant once the fuel covers the string. -/
theorem chunksF_congr : ∀ (f1 f2 : Nat) (s : Str), s.length ≤ f1 → s.length ≤ f2 →
    chunksF f1 s = chunksF f2 s := by
  intro f1
  induction f1 with
  | zero =>
    intro f2 s h1 _
    have hs : s = [] := List.eq_nil_of_length_eq_zero (Nat.le_zero.mp h1)
    subst hs
    cases f2 <;> rfl
  | succ n ih =>
    intro f2 s h1 h2
    cases s with
    | nil => cases f2 <;> rfl
    | cons c cs =>
      cases f2 with
      | zero => simp at h2
      | succ m =>
        have hc1 : cs.length ≤ n := by simp only [List.length_cons] at h1; omega
        have hc2 : cs.length ≤ m := by simp only [List.length_cons] at h2; omega
        by_cases hw : wordChar c = true
        · simp only [chunksF, hw, if_true]
          congr 1
          exact ih m _ (le_trans (List.dropWhile_sublist _).length_le hc1)
            (le_trans (List.dropWhile_sublist _).length_le hc2)
        · have hwf : wordChar c = false := by rwa [Bool.not_eq_true] at hw
          simp only [chunksF, hwf, Bool.false_eq_true, if_false]
          congr 1
          exact ih m _ (le_trans (List.dropWhile_sublist _).length_le hc1)
            (le_trans (List.dropWhile_sublist _).length_le hc2)

/-- Unfolding `chunks` on a word-character head: one maximal word run
then the chunks of the rest. -/
theorem chunks_cons_word (c : Char) (cs : Str) (hw : wordChar c = true) :
    chunks (c :: cs) =
      (c :: cs.takeWhile wordChar) :: chunks (cs.dropWhile wordChar) := by
  show chunksF (c :: cs).length (c :: cs) = _
  simp only [List.length_cons, chunksF, hw, if_true]
  congr 1
  exact chunksF_congr cs.length (cs.dropWhile wordChar).length _
    (List.dropWhile_sublist _).length_le (le_refl _)

/-- Unfolding `chunks` on a separator head. -/
theorem chunks_cons_sep (c : Char) (cs : Str) (hwf : wordChar c = false) :
    chunks (c :: cs) =
      (c :: cs.takeWhile (fun d => !wordChar d)) ::
        chunks (cs.dropWhile (fun d => !wordChar d)) := by
  show chunksF (c :: cs).length (c :: cs) = _
  simp only [List.length_cons, chunksF, hwf, Bool.false_eq_true, if_false]
  congr 1
  exact chunksF_congr cs.length (cs.dropWhile (fun d => !wordChar d)).length _
    (List.dropWhile_sublist _).length_le (le_refl _)

/-- Peeling one separator character off the flattened chunk image. -/
theorem chunks_image_cons_sep (vars consts : List Str) (c : Char) (cs : Str)
    (hwf : wordChar c = false) :
    ((chunks (c :: cs)).map (chunkImage vars consts)).flatten =
      c :: ((chunks cs).map (chunkImage vars consts)).flatten := by
  rw [chunks_cons_sep c cs hwf]
  cases cs with
  | nil => simp [chunks, chunksF, chunkImage, hwf]
  | cons d ds =>
    by_cases hwd : wordChar d = true
    · have ht : (d :: ds).takeWhile (fun x => !wordChar x) = [] := by
        simp [List.takeWhile_cons, hwd]
      have hd2 : (d :: ds).dropWhile (fun x => !wordChar x) = d :: ds := by
        simp [List.dropWhile_cons, hwd]
      rw [ht, hd2]
      simp [chunkImage, hwf]
    · have hwdf : wordChar d = false := by rwa [Bool.not_eq_true] at hwd
      have ht : (d :: ds).takeWhile (fun x => !wordChar x) =
          d :: ds.takeWhile (fun x => !wordChar x) := by
        simp [List.takeWhile_cons, hwdf]
      have hd2 : (d :: ds).dropWhile (fun x => !wordChar x) =
          ds.dropWhile (fun x => !wordChar x) := by
        simp [List.dropWhile_cons, hwdf]
      rw [ht, hd2, chunks_cons_sep d ds hwdf]
      simp [chunkImage, hwf, hwdf]

/-- The variable-substitution stage acts chunk-wise: the non-string
span decomposes into maximal word runs and separators, and each chunk
is mapped through `chunkImage` (sigil for known variables, bare for
known constants, unchanged otherwise). -/
theorem substIdentF_chunks (vars consts : List Str) :
    ∀ (fuel : Nat) (s : Str), s.length ≤ fuel →
      substIdentF vars consts fuel s =
        ((chunks s).map (chunkImage vars consts)).flatten := by
  intro fuel
  induction fuel with
  | zero =>
    intro s h
    have hs : s = [] := List.eq_nil_of_length_eq_zero (Nat.le_zero.mp h)
    subst hs
    rfl
  | succ n ih =>
    intro s h
    cases s with
    | nil => rfl
    | cons c cs =>
      have hlc : cs.length ≤ n := by simp only [List.length_cons] at h; omega
      by_cases hw : wordChar c = true
      · have hdl : (cs.dropWhile wordChar).length ≤ n :=
          le_trans (List.dropWhile_sublist _).length_le hlc
        simp only [substIdentF, hw, if_true]
        rw [ih _ hdl, chunks_cons_word c cs hw]
        simp [chunkImage, hw]
      · have hwf : wordChar c = false := by rwa [Bool.not_eq_true] at hw
        simp only [substIdentF, hwf, Bool.false_eq_true, if_false]
        rw [ih cs hlc, chunks_image_cons_sep vars consts c cs hwf]

/-- `substIdent` leaves a known-constant token bare (unchanged). -/
theorem substIdent_const_run (vars consts : List Str) (c : Char) (cs : Str)
    (hw : ∀ x ∈ c :: cs, wordChar x = true)
    (hc : consts.contains (c :: cs) = true) :
    substIdent vars consts (c :: cs) = c :: cs := by
  have htw : cs.takeWhile wordChar = cs :=
    List.takeWhile_eq_self_iff.mpr (fun x hx => hw x (List.mem_cons_of_mem _ hx))
  have hdw : cs.dropWhile wordChar = [] :=
    List.dropWhile_eq_nil_iff.mpr (fun x hx => hw x (List.mem_cons_of_mem _ hx))
  have hwc : wordChar c = true := hw c (by simp)
  have hnil : ∀ fuel, substIdentF vars consts fuel [] = [] := by
    intro fuel; cases fuel <;> rfl
  have hfin : (identStart c && vars.contains (c :: cs) && !consts.contains (c :: cs)) =
      false := by
    rw [hc]
    simp
  show substIdentF vars consts (c :: cs).length (c :: cs) = c :: cs
  simp only [List.length_cons, substIdentF, hwc, if_true, htw, hdw, hfin, hnil]
  simp [hnil]

/-- C4 (counterexample): with a variable literally named `true`, the
unmatched line `True` is emitted as the bare statement `true;` — the
keyword mapping runs after sigil insertion and produces an un-sigiled
occurrence of a known variable in the emitted line, refuting the claim
as stated about the emitted output. -/
theorem C4_counterexample :
    (convertFrom initState "true = 1\nTrue".toList).map (fun p =>
      (String.mk p.1,
       p.2.known_vars.contains "true".toList &&
         !p.2.known_constants.contains "true".toList &&
         bareIdentOccursIn "true".toList p.1)) =
    some ("<?php\n// Generated by DSL to PHP converter\n$true = 1;\ntrue;", true) := by
  decide

/-- C4 (amended): (1) an input line matched by no recognizer and not
ending with the block-opener colon is emitted (after the indent
tracker runs) as exactly one statement-terminated line — the trimmed
line pushed through the Expression Rewriter plus `;`; (2) the
rewriter's variable-substitution stage decomposes a non-string span
into maximal word runs and separators and sigils exactly the runs in
the known-variable set minus the known-constant set (letter or
underscore head); (3) known-constant tokens are left bare by that
stage.  The later textual keyword mapping can still undo (2) in the
final line, as the counterexample shows. -/
theorem C4_passthrough_statement :
    (∀ (σ : ConvState) (line s : Str),
      strip (rstrip line) = s → s ≠ [] → isPfx ['#'] s = false →
      classify s = none → endsWith s [':'] = false →
      processLine σ line =
        (replaceVars (adjustIndent σ (line.length - (lstrip line).length)).known_vars
            (adjustIndent σ (line.length - (lstrip line).length)).known_constants s).map
          (fun rv => emit (adjustIndent σ (line.length - (lstrip line).length))
            (spaces (line.length - (lstrip line).length) ++ rv ++ [';']))) ∧
    (∀ (vars consts : List Str) (s : Str),
      substIdent vars consts s =
        ((chunks s).map (chunkImage vars consts)).flatten) ∧
    (∀ (vars consts : List Str) (c : Char) (cs : Str),
      (∀ x ∈ c :: cs, wordChar x = true) → consts.contains (c :: cs) = true →
      substIdent vars consts (c :: cs) = c :: cs) := by
  refine ⟨?_, ?_, ?_⟩
  · intro σ line s hs hne hnh hc hcol
    simp only [processLine, hs, hne, if_false, hnh, Bool.false_eq_true, hc]
    simp only [fallbackLine, hcol, Bool.false_eq_true, if_false]
    cases hrv : replaceVars (adjustIndent σ (line.length - (lstrip line).length)).known_vars
        (adjustIndent σ (line.length - (lstrip line).length)).known_constants s <;>
      simp [hrv]
  · intro vars consts s
    exact substIdentF_chunks vars consts s.length s (le_refl _)
  · intro vars consts c cs hw hc
    exact substIdent_const_run vars consts c cs hw hc

/-- C4 witness: the three parts of the amended theorem at concrete
inputs: the unmatched line `a + b`, the span `a+b` with `a` a known
variable, and the constant token `MAX`. -/
theorem C4_witness :
    processLine initState "a + b".toList =
      (replaceVars (adjustIndent initState ("a + b".toList.length -
            (lstrip "a + b".toList).length)).known_vars
          (adjustIndent initState ("a + b".toList.length -
            (lstrip "a + b".toList).length)).known_constants "a + b".toList).map
        (fun rv => emit (adjustIndent initState ("a + b".toList.length -
            (lstrip "a + b".toList).length))
          (spaces ("a + b".toList.length - (lstrip "a + b".toList).length) ++
            rv ++ [';'])) ∧
    substIdent ["a".toList] [] "a+b".toList =
      ((chunks "a+b".toList).map (chunkImage ["a".toList] [])).flatten ∧
    substIdent ["a".toList] ["MAX".toList] ('M' :: "AX".toList) = 'M' :: "AX".toList :=
  ⟨C4_passthrough_statement.1 initState "a + b".toList "a + b".toList (by decide)
      (by decide) (by decide) (by decide) (by decide),
   C4_passthrough_statement.2.1 ["a".toList] [] "a+b".toList,
   C4_passthrough_statement.2.2 ["a".toList] ["MAX".toList] 'M' "AX".toList
      (by decide) (by decide)⟩

/-- Dropping the head keeps the last element of a non-empty tail. -/
theorem getLast?_cons_of_ne (a : Nat) (l : List Nat) (h : l ≠ []) :
    (a :: l).getLast? = l.getLast? := by
  cases l with
  | nil => exact absurd rfl h
  | cons b bs => exact List.getLast?_cons_cons

/-- The element reported by `getLast?` is in the list. -/
theorem mem_of_getLast?_eq (l : List Nat) (x : Nat) : l.getLast? = some x → x ∈ l := by
  induction l with
  | nil => intro h; simp at h
  | cons a as ih =>
    intro h
    cases as with
    | nil =>
      simp only [List.getLast?_singleton, Option.some.injEq] at h
      simp [h]
    | cons b bs =>
      rw [List.getLast?_cons_cons] at h
      exact List.mem_cons_of_mem _ (ih h)

/-- `_finalize_match` only touches the output buffer and the match
accumulator: both stacks and the do-while flag are untouched. -/
theorem finalizeMatch_stacks (σ : ConvState) :
    (finalizeMatch σ).indent_stack = σ.indent_stack ∧
    (finalizeMatch σ).block_types = σ.block_types ∧
    (finalizeMatch σ).do_while_pending = σ.do_while_pending := by
  unfold finalizeMatch
  repeat' split
  all_goals simp

/-- The closer emission of one `_adjust_indent` iteration only touches
the output buffer and the case/switch-pending flags. -/
theorem adjustCloseEmit_stacks (bt : Option Str) (lvl : Nat) (σ : ConvState) :
    (adjustCloseEmit bt lvl σ).indent_stack = σ.indent_stack ∧
    (adjustCloseEmit bt lvl σ).block_types = σ.block_types ∧
    (adjustCloseEmit bt lvl σ).do_while_pending = σ.do_while_pending := by
  unfold adjustCloseEmit
  repeat' split
  all_goals simp

/-- The indent tracker preserves the corrected stack invariant, and —
given fuel covering the stack — leaves the stack top at or below the
new line's indentation (pops stop exactly there; the root `0` is never
popped since indentation is never negative). -/
theorem adjustIndentF_inv (ind : Nat) :
    ∀ (fuel : Nat) (σ : ConvState), StackInv σ →
      StackInv (adjustIndentF fuel σ ind) ∧
      (σ.indent_stack.length ≤ fuel →
        ∀ a ∈ (adjustIndentF fuel σ ind).indent_stack.head?, a ≤ ind) := by
  intro fuel
  induction fuel with
  | zero =>
    intro σ hi
    refine ⟨hi, fun hlen => ?_⟩
    obtain ⟨_, hlast, _, _⟩ := hi
    have hnil : σ.indent_stack = [] :=
      List.eq_nil_of_length_eq_zero (Nat.le_zero.mp hlen)
    rw [hnil] at hlast
    simp at hlast
  | succ n ih =>
    intro σ hi
    obtain ⟨hch, hlast, hlen, hdp⟩ := hi
    cases hst : σ.indent_stack with
    | nil =>
      rw [hst] at hlast
      simp at hlast
    | cons lvl rest =>
      by_cases hlt : ind < lvl
      · have hrne : rest ≠ [] := by
          intro hr
          subst hr
          rw [hst] at hlast
          simp at hlast
          omega
        have hbtlen : σ.block_types.length = rest.length := by
          rw [hst] at hlen
          simp only [List.length_cons] at hlen
          omega
        have hσ1 : adjustIndentF (n + 1) σ ind = adjustIndentF n (adjustCloseEmit σ.block_types.head? lvl (finalizeMatch { σ with indent_stack := rest, block_types := σ.block_types.tail })) ind := by
          simp only [adjustIndentF, hst, hlt, if_true]
        obtain ⟨hf1, hf2, hf3⟩ := finalizeMatch_stacks { σ with indent_stack := rest, block_types := σ.block_types.tail }
        obtain ⟨he1, he2, he3⟩ := adjustCloseEmit_stacks σ.block_types.head? lvl (finalizeMatch { σ with indent_stack := rest, block_types := σ.block_types.tail })
        rw [hσ1]
        have hstk : (adjustCloseEmit σ.block_types.head? lvl (finalizeMatch { σ with indent_stack := rest, block_types := σ.block_types.tail })).indent_stack = rest := by
          rw [he1, hf1]
        have hbts : (adjustCloseEmit σ.block_types.head? lvl (finalizeMatch { σ with indent_stack := rest, block_types := σ.block_types.tail })).block_types = σ.block_types.tail := by
          rw [he2, hf2]
        have hdps : (adjustCloseEmit σ.block_types.head? lvl (finalizeMatch { σ with indent_stack := rest, block_types := σ.block_types.tail })).do_while_pending = false := by
          rw [he3, hf3]
          exact hdp
        have hinv2 : StackInv (adjustCloseEmit σ.block_types.head? lvl (finalizeMatch { σ with indent_stack := rest, block_types := σ.block_types.tail })) := by
          refine ⟨?_, ?_, ?_, hdps⟩
          · rw [hstk]
            rw [hst] at hch
            exact hch.tail
          · rw [hstk]
            rw [hst, getLast?_cons_of_ne lvl rest hrne] at hlast
            exact hlast
          · rw [hstk, hbts, List.length_tail, hbtlen]
            cases rest with
            | nil => exact absurd rfl hrne
            | cons r rs =>
              simp only [List.length_cons]
              omega
        obtain ⟨ha, hb⟩ := ih _ hinv2
        refine ⟨ha, fun hl2 => ?_⟩
        apply hb
        rw [hstk]
        simp only [List.length_cons] at hl2
        omega
      · have heq : adjustIndentF (n + 1) σ ind = σ := by
          simp only [adjustIndentF, hst, hlt, if_false]
        rw [heq]
        refine ⟨⟨hch, hlast, hlen, hdp⟩, fun _ a ha => ?_⟩
        rw [hst] at ha
        simp only [List.head?_cons, Option.mem_def, Option.some.injEq] at ha
        omega

/-- What one dispatched handler does to the two stacks and the
do-while flag: it leaves them untouched, pushes one paired
(indent + 4, kind) entry (clearing nothing; only the `do:` handler
sets the pending flag), or — the bare `while` closing a pending
do-block — pops one paired entry and clears the flag; and a handler
that declines (`done = false`) leaves the whole state untouched. -/
theorem applyRule_stack (σ : ConvState) (r : Rule) (caps : Caps) (ind : Nat)
    (σ' : ConvState) (d : Bool)
    (h : applyRule σ r caps ind = some (σ', d)) :
    ((σ'.indent_stack = σ.indent_stack ∧ σ'.block_types = σ.block_types ∧
        σ'.do_while_pending = σ.do_while_pending) ∨
      (∃ bt, σ'.indent_stack = (ind + 4) :: σ.indent_stack ∧
        σ'.block_types = bt :: σ.block_types ∧
        (σ'.do_while_pending = σ.do_while_pending ∨ r = Rule.rDo)) ∨
      (σ'.indent_stack = σ.indent_stack.tail ∧
        σ'.block_types = σ.block_types.tail ∧
        σ'.do_while_pending = false ∧ σ.do_while_pending = true)) ∧
    (d = false → σ' = σ) := by
  cases r with
  | rDo =>
    simp only [applyRule, handleDo, Option.some.injEq, Prod.mk.injEq] at h
    obtain ⟨h1, h2⟩ := h
    subst h1
    exact ⟨Or.inr (Or.inl ⟨"do".toList, by simp [emit, pushBlock],
      by simp [emit, pushBlock], Or.inr rfl⟩),
      fun hd => by rw [← h2] at hd; simp at hd⟩
  | rImport =>
    simp only [applyRule, handleImport] at h
    split at h <;>
    · simp only [Option.some.injEq, Prod.mk.injEq] at h
      obtain ⟨h1, h2⟩ := h
      subst h1
      exact ⟨Or.inl ⟨by simp [emit], by simp [emit], by simp [emit]⟩,
        fun hd => by rw [← h2] at hd; simp at hd⟩
  | rFunc =>
    simp only [applyRule, handleFunc] at h
    split at h
    · simp only [Option.bind_eq_bind, Option.pure_def, Option.some_bind,
        Option.some.injEq, Prod.mk.injEq] at h
      obtain ⟨h1, h2⟩ := h
      subst h1
      exact ⟨Or.inr (Or.inl ⟨"function".toList, by simp [emit, pushBlock],
        by simp [emit, pushBlock], Or.inl (by simp [emit, pushBlock])⟩),
        fun hd => by rw [← h2] at hd; simp at hd⟩
    · simp only [Option.bind_eq_bind, Option.bind_eq_some, Option.pure_def,
        Option.some.injEq, Prod.mk.injEq] at h
      obtain ⟨x, -, h⟩ := h
      obtain ⟨ps, ns⟩ := x
      simp only [Option.some.injEq, Prod.mk.injEq] at h
      obtain ⟨h1, h2⟩ := h
      subst h1
      exact ⟨Or.inr (Or.inl ⟨"function".toList, by simp [emit, pushBlock],
        by simp [emit, pushBlock], Or.inl (by simp [emit, pushBlock])⟩),
        fun hd => by rw [← h2] at hd; simp at hd⟩
  | rAnonShort =>
    simp only [applyRule, handleAnonFnShort, Option.bind_eq_bind, Option.bind_eq_some,
      Option.pure_def, Option.some.injEq, Prod.mk.injEq] at h
    obtain ⟨b, -, h1, h2⟩ := h
    subst h1
    exact ⟨Or.inl ⟨by simp [emit], by simp [emit], by simp [emit]⟩,
      fun hd => by rw [← h2] at hd; simp at hd⟩
  | rAnonLong =>
    simp only [applyRule, handleAnonFnLong, Option.pure_def, Option.some.injEq,
      Prod.mk.injEq] at h
    obtain ⟨h1, h2⟩ := h
    subst h1
    exact ⟨Or.inr (Or.inl ⟨"anon_fn".toList, by simp [emit, pushBlock],
      by simp [emit, pushBlock], Or.inl (by simp [emit, pushBlock])⟩),
      fun hd => by rw [← h2] at hd; simp at hd⟩
  | rWith =>
    simp only [applyRule, handleWith, Option.bind_eq_bind, Option.bind_eq_some,
      Option.pure_def, Option.some.injEq, Prod.mk.injEq] at h
    obtain ⟨b, -, h1, h2⟩ := h
    subst h1
    exact ⟨Or.inr (Or.inl ⟨"with".toList, by simp [emit, pushBlock],
      by simp [emit, pushBlock], Or.inl (by simp [emit, pushBlock])⟩),
      fun hd => by rw [← h2] at hd; simp at hd⟩
  | rMatchAssign =>
    simp only [applyRule, handleMatchAssignment, Option.some.injEq, Prod.mk.injEq] at h
    obtain ⟨h1, h2⟩ := h
    subst h1
    exact ⟨Or.inl ⟨by simp, by simp, by simp⟩,
      fun hd => by rw [← h2] at hd; simp at hd⟩
  | rMatchReturn =>
    simp only [applyRule, handleMatchReturn, Option.some.injEq, Prod.mk.injEq] at h
    obtain ⟨h1, h2⟩ := h
    subst h1
    exact ⟨Or.inl ⟨by simp, by simp, by simp⟩,
      fun hd => by rw [← h2] at hd; simp at hd⟩
  | rCase =>
    simp only [applyRule, handleCase] at h
    split at h
    · simp only [Option.some.injEq, Prod.mk.injEq] at h
      obtain ⟨h1, h2⟩ := h
      subst h1
      exact ⟨Or.inl ⟨rfl, rfl, rfl⟩, fun _ => rfl⟩
    · simp only [Option.bind_eq_bind, Option.bind_eq_some, Option.pure_def,
        Option.some.injEq, Prod.mk.injEq] at h
      obtain ⟨a, -, b, -, h1, h2⟩ := h
      subst h1
      exact ⟨Or.inl ⟨by simp, by simp, by simp⟩,
        fun hd => by rw [← h2] at hd; simp at hd⟩
  | rDefault =>
    simp only [applyRule, handleDefault] at h
    split at h
    · simp only [Option.some.injEq, Prod.mk.injEq] at h
      obtain ⟨h1, h2⟩ := h
      subst h1
      exact ⟨Or.inl ⟨rfl, rfl, rfl⟩, fun _ => rfl⟩
    · simp only [Option.bind_eq_bind, Option.bind_eq_some, Option.pure_def,
        Option.some.injEq, Prod.mk.injEq] at h
      obtain ⟨a, -, h1, h2⟩ := h
      subst h1
      exact ⟨Or.inl ⟨by simp, by simp, by simp⟩,
        fun hd => by rw [← h2] at hd; simp at hd⟩
  | rInput =>
    simp only [applyRule, handleInput, Option.some.injEq, Prod.mk.injEq] at h
    obtain ⟨h1, h2⟩ := h
    subst h1
    exact ⟨Or.inl ⟨by simp [emit], by simp [emit], by simp [emit]⟩,
      fun hd => by rw [← h2] at hd; simp at hd⟩
  | rTernary =>
    simp only [applyRule, handleTernary, Option.bind_eq_bind, Option.bind_eq_some,
      Option.pure_def, Option.some.injEq, Prod.mk.injEq] at h
    obtain ⟨a, -, b, -, c, -, h1, h2⟩ := h
    subst h1
    exact ⟨Or.inl ⟨by simp [emit], by simp [emit], by simp [emit]⟩,
      fun hd => by rw [← h2] at hd; simp at hd⟩
  | rWhileColon =>
    simp only [applyRule, handleWhile] at h
    split at h
    · next hpd =>
      split at h
      · simp at h
      · next lvl rest heq =>
        simp only [Option.bind_eq_bind, Option.bind_eq_some, Option.pure_def,
          Option.some.injEq, Prod.mk.injEq] at h
        obtain ⟨cv, -, h1, h2⟩ := h
        subst h1
        refine ⟨Or.inr (Or.inr ⟨by rw [heq]; simp [emit], by simp [emit],
          by simp [emit], hpd⟩), fun hd => by rw [← h2] at hd; simp at hd⟩
    · next hpd =>
      simp only [Option.bind_eq_bind, Option.bind_eq_some, Option.pure_def,
        Option.some.injEq, Prod.mk.injEq] at h
      obtain ⟨cv, -, h1, h2⟩ := h
      subst h1
      exact ⟨Or.inr (Or.inl ⟨"while".toList, by simp [emit, pushBlock],
        by simp [emit, pushBlock], Or.inl (by simp [emit, pushBlock])⟩),
        fun hd => by rw [← h2] at hd; simp at hd⟩
  | rWhileBare =>
    simp only [applyRule, handleWhile] at h
    split at h
    · next hpd =>
      split at h
      · simp at h
      · next lvl rest heq =>
        simp only [Option.bind_eq_bind, Option.bind_eq_some, Option.pure_def,
          Option.some.injEq, Prod.mk.injEq] at h
        obtain ⟨cv, -, h1, h2⟩ := h
        subst h1
        refine ⟨Or.inr (Or.inr ⟨by rw [heq]; simp [emit], by simp [emit],
          by simp [emit], hpd⟩), fun hd => by rw [← h2] at hd; simp at hd⟩
    · next hpd =>
      simp only [Option.bind_eq_bind, Option.bind_eq_some, Option.pure_def,
        Option.some.injEq, Prod.mk.injEq] at h
      obtain ⟨cv, -, h1, h2⟩ := h
      subst h1
      exact ⟨Or.inr (Or.inl ⟨"while".toList, by simp [emit, pushBlock],
        by simp [emit, pushBlock], Or.inl (by simp [emit, pushBlock])⟩),
        fun hd => by rw [← h2] at hd; simp at hd⟩
  | rConstant =>
    simp only [applyRule, handleConstant, Option.bind_eq_bind, Option.bind_eq_some,
      Option.pure_def, Option.some.injEq, Prod.mk.injEq] at h
    obtain ⟨a, -, h1, h2⟩ := h
    subst h1
    exact ⟨Or.inl ⟨by simp [emit], by simp [emit], by simp [emit]⟩,
      fun hd => by rw [← h2] at hd; simp at hd⟩
  | rAssign =>
    simp only [applyRule, handleAssignment, Option.bind_eq_bind, Option.bind_eq_some,
      Option.pure_def, Option.some.injEq, Prod.mk.injEq] at h
    obtain ⟨a, -, h1, h2⟩ := h
    subst h1
    exact ⟨Or.inl ⟨by simp [emit], by simp [emit], by simp [emit]⟩,
      fun hd => by rw [← h2] at hd; simp at hd⟩
  | rReturn =>
    simp only [applyRule, handleReturn, Option.bind_eq_bind, Option.bind_eq_some,
      Option.pure_def, Option.some.injEq, Prod.mk.injEq] at h
    obtain ⟨a, -, h1, h2⟩ := h
    subst h1
    exact ⟨Or.inl ⟨by simp [emit], by simp [emit], by simp [emit]⟩,
      fun hd => by rw [← h2] at hd; simp at hd⟩
  | rBreak =>
    simp only [applyRule, handleBreak, Option.some.injEq, Prod.mk.injEq] at h
    obtain ⟨h1, h2⟩ := h
    subst h1
    exact ⟨Or.inl ⟨by simp [emit], by simp [emit], by simp [emit]⟩,
      fun hd => by rw [← h2] at hd; simp at hd⟩
  | rContinue =>
    simp only [applyRule, handleContinue, Option.some.injEq, Prod.mk.injEq] at h
    obtain ⟨h1, h2⟩ := h
    subst h1
    exact ⟨Or.inl ⟨by simp [emit], by simp [emit], by simp [emit]⟩,
      fun hd => by rw [← h2] at hd; simp at hd⟩
  | rPass =>
    simp only [applyRule, handlePass, Option.some.injEq, Prod.mk.injEq] at h
    obtain ⟨h1, h2⟩ := h
    subst h1
    exact ⟨Or.inl ⟨by simp [emit], by simp [emit], by simp [emit]⟩,
      fun hd => by rw [← h2] at hd; simp at hd⟩
  | rPrint =>
    simp only [applyRule, handlePrint, Option.bind_eq_bind, Option.bind_eq_some,
      Option.pure_def, Option.some.injEq, Prod.mk.injEq] at h
    obtain ⟨a, -, h1, h2⟩ := h
    subst h1
    exact ⟨Or.inl ⟨by simp [emit], by simp [emit], by simp [emit]⟩,
      fun hd => by rw [← h2] at hd; simp at hd⟩
  | rIf =>
    simp only [applyRule, handleIf, Option.bind_eq_bind, Option.bind_eq_some,
      Option.pure_def, Option.some.injEq, Prod.mk.injEq] at h
    obtain ⟨a, -, h1, h2⟩ := h
    subst h1
    exact ⟨Or.inr (Or.inl ⟨"if".toList, by simp [emit, pushBlock],
      by simp [emit, pushBlock], Or.inl (by simp [emit, pushBlock])⟩),
      fun hd => by rw [← h2] at hd; simp at hd⟩
  | rElif =>
    simp only [applyRule, handleElif, Option.bind_eq_bind, Option.bind_eq_some,
      Option.pure_def, Option.some.injEq, Prod.mk.injEq] at h
    obtain ⟨a, -, h1, h2⟩ := h
    subst h1
    exact ⟨Or.inr (Or.inl ⟨"elif".toList, by simp [emit, pushBlock],
      by simp [emit, pushBlock], Or.inl (by simp [emit, pushBlock])⟩),
      fun hd => by rw [← h2] at hd; simp at hd⟩
  | rElse =>
    simp only [applyRule, handleElse, Option.some.injEq, Prod.mk.injEq] at h
    obtain ⟨h1, h2⟩ := h
    subst h1
    exact ⟨Or.inr (Or.inl ⟨"else".toList, by simp [emit, pushBlock],
      by simp [emit, pushBlock], Or.inl (by simp [emit, pushBlock])⟩),
      fun hd => by rw [← h2] at hd; simp at hd⟩
  | rForRange =>
    simp only [applyRule, handleForRange] at h
    split at h <;>
    · simp only [Option.bind_eq_bind, Option.bind_eq_some, Option.pure_def,
        Option.some.injEq, Prod.mk.injEq] at h
      obtain ⟨a, -, b, -, c, -, h1, h2⟩ := h
      subst h1
      exact ⟨Or.inr (Or.inl ⟨"for".toList, by simp [emit, pushBlock],
        by simp [emit, pushBlock], Or.inl (by simp [emit, pushBlock])⟩),
        fun hd => by rw [← h2] at hd; simp at hd⟩
  | rForeach =>
    simp only [applyRule, handleForeach, Option.bind_eq_bind, Option.bind_eq_some,
      Option.pure_def, Option.some.injEq, Prod.mk.injEq] at h
    obtain ⟨a, -, h1, h2⟩ := h
    subst h1
    exact ⟨Or.inr (Or.inl ⟨"foreach".toList, by simp [emit, pushBlock],
      by simp [emit, pushBlock], Or.inl (by simp [emit, pushBlock])⟩),
      fun hd => by rw [← h2] at hd; simp at hd⟩
  | rSwitch =>
    simp only [applyRule, handleSwitch, Option.bind_eq_bind, Option.bind_eq_some,
      Option.pure_def, Option.some.injEq, Prod.mk.injEq] at h
    obtain ⟨a, -, h1, h2⟩ := h
    subst h1
    exact ⟨Or.inr (Or.inl ⟨"switch".toList, by simp [emit, pushBlock],
      by simp [emit, pushBlock], Or.inl (by simp [emit, pushBlock])⟩),
      fun hd => by rw [← h2] at hd; simp at hd⟩
  | rSwitchCase =>
    simp only [applyRule, handleSwitchCase, Option.bind_eq_bind, Option.bind_eq_some,
      Option.pure_def, Option.some.injEq, Prod.mk.injEq] at h
    obtain ⟨a, -, h1, h2⟩ := h
    subst h1
    refine ⟨Or.inl ⟨?_, ?_, ?_⟩, fun hd => by rw [← h2] at hd; simp at hd⟩ <;>
      (split <;> simp [emit])
  | rSwitchDefault =>
    simp only [applyRule, handleSwitchDefault, Option.some.injEq, Prod.mk.injEq] at h
    obtain ⟨h1, h2⟩ := h
    subst h1
    refine ⟨Or.inl ⟨?_, ?_, ?_⟩, fun hd => by rw [← h2] at hd; simp at hd⟩ <;>
      (split <;> simp [emit])
  | rFuncCall =>
    simp only [applyRule, handleFunctionCall, Option.bind_eq_bind, Option.bind_eq_some,
      Option.pure_def, Option.some.injEq, Prod.mk.injEq] at h
    obtain ⟨a, -, h1, h2⟩ := h
    subst h1
    exact ⟨Or.inl ⟨by simp [emit], by simp [emit], by simp [emit]⟩,
      fun hd => by rw [← h2] at hd; simp at hd⟩

/-- The generic fallback leaves the do-while flag alone and either
leaves both stacks unchanged (statement emission) or pushes one paired
(indent + 4, kind) entry (generic block opener). -/
theorem fallbackLine_stack (σ : ConvState) (stripped : Str) (ind : Nat)
    (σ' : ConvState) (h : fallbackLine σ stripped ind = some σ') :
    σ'.do_while_pending = σ.do_while_pending ∧
    ((σ'.indent_stack = σ.indent_stack ∧ σ'.block_types = σ.block_types) ∨
      ∃ bt, σ'.indent_stack = (ind + 4) :: σ.indent_stack ∧
        σ'.block_types = bt :: σ.block_types) := by
  simp only [fallbackLine] at h
  split at h
  · simp only [Option.some.injEq] at h
    subst h
    exact ⟨by simp [pushBlock, emit], Or.inr ⟨"block".toList,
      by simp [pushBlock, emit], by simp [pushBlock, emit]⟩⟩
  · simp only [Option.bind_eq_bind, Option.bind_eq_some, Option.pure_def,
      Option.some.injEq] at h
    obtain ⟨rv, -, h⟩ := h
    subst h
    exact ⟨by simp [emit], Or.inl ⟨by simp [emit], by simp [emit]⟩⟩

/-- The only line the classifier tags `rDo` is the literal `do:`. -/
theorem classify_rDo (s : Str) (caps : Caps)
    (h : classify s = some (Rule.rDo, caps)) : s = "do:".toList := by
  obtain ⟨p, hmem, hfm⟩ := classifyGo_mem _ _ _ _ h
  rw [recognizers_rDo p hmem] at hfm
  simp only [pLit] at hfm
  exact fullMatch_single_lit _ _ _ _ hfm

/-- The invariant survives the two stack effects a handler or the
fallback can have, provided every element on top of the stack is at
most the current indent (which `_adjust_indent` guarantees). -/
theorem StackInv_push_or_same (σ₁ σ' : ConvState) (ind : Nat)
    (hinv : StackInv σ₁)
    (hhead : ∀ a ∈ σ₁.indent_stack.head?, a ≤ ind)
    (hpend : σ'.do_while_pending = false)
    (hsh : (σ'.indent_stack = σ₁.indent_stack ∧ σ'.block_types = σ₁.block_types) ∨
      ∃ bt, σ'.indent_stack = (ind + 4) :: σ₁.indent_stack ∧
        σ'.block_types = bt :: σ₁.block_types) :
    StackInv σ' := by
  obtain ⟨hch, hlast, hlen, -⟩ := hinv
  rcases hsh with ⟨hi, hb⟩ | ⟨bt, hi, hb⟩
  · exact ⟨by rw [hi]; exact hch, by rw [hi]; exact hlast,
      by rw [hi, hb]; exact hlen, hpend⟩
  · have hne : σ₁.indent_stack ≠ [] := by
      intro he
      rw [he] at hlast
      simp at hlast
    refine ⟨?_, ?_, ?_, hpend⟩
    · rw [hi, List.chain'_cons']
      refine ⟨fun b hb2 => ?_, hch⟩
      have := hhead b hb2
      omega
    · rw [hi, getLast?_cons_of_ne _ _ hne]
      exact hlast
    · rw [hi, hb]
      simp only [List.length_cons]
      omega

/-- One line of the loop preserves the corrected stack invariant, as
long as the line is not the do-block opener. -/
theorem processLine_inv (σ : ConvState) (line : Str) (σ' : ConvState)
    (hinv : StackInv σ)
    (hdo : strip (rstrip line) ≠ "do:".toList)
    (h : processLine σ line = some σ') : StackInv σ' := by
  obtain ⟨hia, hib⟩ := adjustIndentF_inv (line.length - (lstrip line).length)
    σ.indent_stack.length σ hinv
  have hhd := hib (Nat.le_refl _)
  simp only [processLine] at h
  split at h
  · simp only [Option.some.injEq] at h
    subst h
    exact ⟨hinv.1, hinv.2.1, hinv.2.2.1, hinv.2.2.2⟩
  · split at h
    · simp only [Option.some.injEq] at h
      subst h
      exact ⟨hinv.1, hinv.2.1, hinv.2.2.1, hinv.2.2.2⟩
    · split at h
      · next r caps heq =>
        have hrdo : r ≠ Rule.rDo := by
          intro he
          subst he
          exact hdo (classify_rDo _ _ heq)
        simp only [Option.bind_eq_bind, Option.bind_eq_some] at h
        obtain ⟨x, happ, h⟩ := h
        obtain ⟨σ₂, dn⟩ := x
        obtain ⟨hsh0, hundone⟩ := applyRule_stack _ r caps _ σ₂ dn happ
        have hpd : (adjustIndent σ (line.length -
            (lstrip line).length)).do_while_pending = false := hia.2.2.2
        have hp2 : σ₂.do_while_pending = false := by
          rcases hsh0 with ⟨-, -, he⟩ | ⟨bt, -, -, he | he⟩ | ⟨-, -, -, he⟩
          · rw [he]; exact hpd
          · rw [he]; exact hpd
          · exact absurd he hrdo
          · rw [hpd] at he; exact absurd he (by simp)
        have hsh : (σ₂.indent_stack =
              (adjustIndent σ (line.length - (lstrip line).length)).indent_stack ∧
            σ₂.block_types =
              (adjustIndent σ (line.length - (lstrip line).length)).block_types) ∨
            ∃ bt, σ₂.indent_stack = ((line.length - (lstrip line).length) + 4) ::
                (adjustIndent σ (line.length - (lstrip line).length)).indent_stack ∧
              σ₂.block_types = bt ::
                (adjustIndent σ (line.length - (lstrip line).length)).block_types := by
          rcases hsh0 with ⟨h1, h2, -⟩ | ⟨bt, h1, h2, -⟩ | ⟨-, -, -, he⟩
          · exact Or.inl ⟨h1, h2⟩
          · exact Or.inr ⟨bt, h1, h2⟩
          · rw [hpd] at he; exact absurd he (by simp)
        cases dn with
        | true =>
          simp only [if_true, Option.pure_def, Option.some.injEq] at h
          subst h
          exact StackInv_push_or_same _ _ _ hia hhd hp2 hsh
        | false =>
          have hσ2 : σ₂ = adjustIndent σ (line.length - (lstrip line).length) :=
            hundone rfl
          simp only [Bool.false_eq_true, if_false] at h
          rw [hσ2] at h
          obtain ⟨hp3, hsh3⟩ := fallbackLine_stack _ _ _ _ h
          exact StackInv_push_or_same _ _ _ hia hhd
            (by rw [hp3]; exact hia.2.2.2) hsh3
      · obtain ⟨hp3, hsh3⟩ := fallbackLine_stack _ _ _ _ h
        exact StackInv_push_or_same _ _ _ hia hhd
          (by rw [hp3]; exact hia.2.2.2) hsh3

/-- The fold over all lines preserves the corrected stack invariant on
do-free input. -/
theorem processLines_inv : ∀ (ls : List Str) (σ σ' : ConvState),
    StackInv σ → (∀ l ∈ ls, strip (rstrip l) ≠ "do:".toList) →
    processLines σ ls = some σ' → StackInv σ' := by
  intro ls
  induction ls with
  | nil =>
    intro σ σ' hinv _ h
    simp only [processLines, Option.some.injEq] at h
    subst h
    exact hinv
  | cons l ls ih =>
    intro σ σ' hinv hdo h
    simp only [processLines, Option.bind_eq_bind, Option.bind_eq_some] at h
    obtain ⟨σ₁, h1, h2⟩ := h
    exact ih σ₁ σ' (processLine_inv σ l σ₁ hinv (hdo l (List.mem_cons_self l ls)) h1)
      (fun x hx => hdo x (List.mem_cons_of_mem l hx)) h2

/-- The indent tracker preserves strict decrease head-to-tail on its
own (no further invariant needed), and with enough fuel it leaves the
top of the stack at most the current indent. -/
theorem adjustIndentF_chain (ind : Nat) :
    ∀ (fuel : Nat) (σ : ConvState),
      List.Chain' (fun a b => b < a) σ.indent_stack →
      List.Chain' (fun a b => b < a) (adjustIndentF fuel σ ind).indent_stack ∧
      (σ.indent_stack.length ≤ fuel →
        ∀ a ∈ (adjustIndentF fuel σ ind).indent_stack.head?, a ≤ ind) := by
  intro fuel
  induction fuel with
  | zero =>
    intro σ hc
    refine ⟨hc, fun hlen a ha => ?_⟩
    have hnil : σ.indent_stack = [] :=
      List.eq_nil_of_length_eq_zero (Nat.le_zero.mp hlen)
    simp only [adjustIndentF, hnil] at ha
    simp at ha
  | succ n ih =>
    intro σ hc
    cases hst : σ.indent_stack with
    | nil =>
      have heq : adjustIndentF (n + 1) σ ind = σ := by
        simp only [adjustIndentF, hst]
      rw [heq]
      refine ⟨hc, fun _ a ha => ?_⟩
      rw [hst] at ha
      simp at ha
    | cons lvl rest =>
      by_cases hlt : ind < lvl
      · have hσ1 : adjustIndentF (n + 1) σ ind = adjustIndentF n (adjustCloseEmit σ.block_types.head? lvl (finalizeMatch { σ with indent_stack := rest, block_types := σ.block_types.tail })) ind := by
          simp only [adjustIndentF, hst, hlt, if_true]
        obtain ⟨hf1, -, -⟩ := finalizeMatch_stacks { σ with indent_stack := rest, block_types := σ.block_types.tail }
        obtain ⟨he1, -, -⟩ := adjustCloseEmit_stacks σ.block_types.head? lvl (finalizeMatch { σ with indent_stack := rest, block_types := σ.block_types.tail })
        have hstk : (adjustCloseEmit σ.block_types.head? lvl (finalizeMatch { σ with indent_stack := rest, block_types := σ.block_types.tail })).indent_stack = rest := by
          rw [he1, hf1]
        have hc2 : List.Chain' (fun a b => b < a) (adjustCloseEmit σ.block_types.head? lvl (finalizeMatch { σ with indent_stack := rest, block_types := σ.block_types.tail })).indent_stack := by
          rw [hstk]
          rw [hst] at hc
          exact hc.tail
        obtain ⟨ha, hb⟩ := ih _ hc2
        rw [hσ1]
        refine ⟨ha, fun hl2 => ?_⟩
        apply hb
        rw [hstk]
        simp only [List.length_cons] at hl2
        omega
      · have heq : adjustIndentF (n + 1) σ ind = σ := by
          simp only [adjustIndentF, hst, hlt, if_false]
        rw [heq]
        refine ⟨hc, fun _ a ha => ?_⟩
        rw [hst] at ha
        simp only [List.head?_cons, Option.mem_def, Option.some.injEq] at ha
        omega

/-- Strict decrease survives the three stack effects a line can have
once every element on top of the stack is at most the current indent:
unchanged, push of `indent + 4`, or a pop. -/
theorem chain_shape_preserved (σ₁ σ' : ConvState) (ind : Nat)
    (hch : List.Chain' (fun a b => b < a) σ₁.indent_stack)
    (hhead : ∀ a ∈ σ₁.indent_stack.head?, a ≤ ind)
    (hsh : σ'.indent_stack = σ₁.indent_stack ∨
      σ'.indent_stack = (ind + 4) :: σ₁.indent_stack ∨
      σ'.indent_stack = σ₁.indent_stack.tail) :
    List.Chain' (fun a b => b < a) σ'.indent_stack := by
  rcases hsh with hi | hi | hi
  · rw [hi]; exact hch
  · rw [hi, List.chain'_cons']
    refine ⟨fun b hb2 => ?_, hch⟩
    have := hhead b hb2
    omega
  · rw [hi]
    cases hst : σ₁.indent_stack with
    | nil => simp
    | cons x xs =>
      rw [hst] at hch
      exact hch.tail

/-- One line of the loop preserves strict bottom-to-top increase of
the indentation stack — for every input line, do-blocks included. -/
theorem processLine_chain (σ : ConvState) (line : Str) (σ' : ConvState)
    (hch : List.Chain' (fun a b => b < a) σ.indent_stack)
    (h : processLine σ line = some σ') :
    List.Chain' (fun a b => b < a) σ'.indent_stack := by
  obtain ⟨hca, hcb⟩ := adjustIndentF_chain (line.length - (lstrip line).length)
    σ.indent_stack.length σ hch
  have hhd := hcb (Nat.le_refl _)
  simp only [processLine] at h
  split at h
  · simp only [Option.some.injEq] at h
    subst h
    exact hch
  · split at h
    · simp only [Option.some.injEq] at h
      subst h
      exact hch
    · split at h
      · next r caps heq =>
        simp only [Option.bind_eq_bind, Option.bind_eq_some] at h
        obtain ⟨x, happ, h⟩ := h
        obtain ⟨σ₂, dn⟩ := x
        obtain ⟨hsh0, hundone⟩ := applyRule_stack _ r caps _ σ₂ dn happ
        have hsh : σ₂.indent_stack =
              (adjustIndent σ (line.length - (lstrip line).length)).indent_stack ∨
            σ₂.indent_stack = ((line.length - (lstrip line).length) + 4) ::
              (adjustIndent σ (line.length - (lstrip line).length)).indent_stack ∨
            σ₂.indent_stack =
              (adjustIndent σ (line.length - (lstrip line).length)).indent_stack.tail := by
          rcases hsh0 with ⟨h1, -, -⟩ | ⟨bt, h1, -, -⟩ | ⟨h1, -, -, -⟩
          · exact Or.inl h1
          · exact Or.inr (Or.inl h1)
          · exact Or.inr (Or.inr h1)
        have hc2 : List.Chain' (fun a b => b < a) σ₂.indent_stack :=
          chain_shape_preserved _ _ _ hca hhd hsh
        cases dn with
        | true =>
          simp only [if_true, Option.pure_def, Option.some.injEq] at h
          subst h
          exact hc2
        | false =>
          have hσ2 : σ₂ = adjustIndent σ (line.length - (lstrip line).length) :=
            hundone rfl
          simp only [Bool.false_eq_true, if_false] at h
          rw [hσ2] at h
          obtain ⟨-, hsh3⟩ := fallbackLine_stack _ _ _ _ h
          refine chain_shape_preserved _ _ _ hca hhd ?_
          rcases hsh3 with ⟨h1, -⟩ | ⟨bt, h1, -⟩
          · exact Or.inl h1
          · exact Or.inr (Or.inl h1)
      · obtain ⟨-, hsh3⟩ := fallbackLine_stack _ _ _ _ h
        refine chain_shape_preserved _ _ _ hca hhd ?_
        rcases hsh3 with ⟨h1, -⟩ | ⟨bt, h1, -⟩
        · exact Or.inl h1
        · exact Or.inr (Or.inl h1)

/-- The fold over all lines preserves the strict increase, for every
input. -/
theorem processLines_chain : ∀ (ls : List Str) (σ σ' : ConvState),
    List.Chain' (fun a b => b < a) σ.indent_stack →
    processLines σ ls = some σ' →
    List.Chain' (fun a b => b < a) σ'.indent_stack := by
  intro ls
  induction ls with
  | nil =>
    intro σ σ' hch h
    simp only [processLines, Option.some.injEq] at h
    subst h
    exact hch
  | cons l ls ih =>
    intro σ σ' hch h
    simp only [processLines, Option.bind_eq_bind, Option.bind_eq_some] at h
    obtain ⟨σ₁, h1, h2⟩ := h
    exact ih σ₁ σ' (processLine_chain σ l σ₁ hch h1) h2

/-- C2 (amended): after processing any prefix of the input lines
inside `convert`, the indentation stack is strictly increasing from
bottom to top — for every input, do-blocks included; and, provided no
input line strips to the do-block opener `do:`, its bottom entry is
the root `0` (hence `0` is always on the stack) and its length exceeds
the block-kind stack's length by exactly one (the root level is
unpaired). -/
theorem C2_stack_invariant (code : Str) (n : Nat) (σ' : ConvState)
    (h : stateAfterPfx code n = some σ') :
    List.Chain' (fun a b => b < a) σ'.indent_stack ∧
    ((∀ l ∈ splitLines code, strip (rstrip l) ≠ "do:".toList) →
      σ'.indent_stack.getLast? = some 0 ∧
      0 ∈ σ'.indent_stack ∧
      σ'.indent_stack.length = σ'.block_types.length + 1) := by
  refine ⟨?_, fun hdo => ?_⟩
  · have hinit : List.Chain' (fun a b => b < a) (reinitState initState).indent_stack := by
      simp [reinitState]
    exact processLines_chain ((splitLines code).take n) (reinitState initState) σ'
      hinit h
  · have hinit : StackInv (reinitState initState) := by
      refine ⟨?_, rfl, rfl, rfl⟩
      simp [reinitState]
    have hfin := processLines_inv ((splitLines code).take n) (reinitState initState) σ'
      hinit (fun l hl => hdo l (List.take_subset n _ hl)) h
    obtain ⟨-, b, c, -⟩ := hfin
    exact ⟨b, mem_of_getLast?_eq _ _ b, c⟩

/-- C2 witness: the amended invariant applied after both lines of a
concrete two-line input that opens one if-block; the strict increase
holds outright and the remaining conjuncts follow since neither line
is `do:`. -/
theorem C2_witness :
    List.Chain' (fun a b => b < a)
      ((stateAfterPfx "if x:\n    y = 1".toList 2).getD initState).indent_stack ∧
    ((stateAfterPfx "if x:\n    y = 1".toList 2).getD initState).indent_stack.getLast?
      = some 0 ∧
    0 ∈ ((stateAfterPfx "if x:\n    y = 1".toList 2).getD initState).indent_stack ∧
    ((stateAfterPfx "if x:\n    y = 1".toList 2).getD initState).indent_stack.length =
      ((stateAfterPfx "if x:\n    y = 1".toList 2).getD initState).block_types.length
        + 1 :=
  ⟨(C2_stack_invariant "if x:\n    y = 1".toList 2 _ (by decide)).1,
   (C2_stack_invariant "if x:\n    y = 1".toList 2 _ (by decide)).2 (by decide)⟩

/-- C9 witness: the amended theorem at a concrete map literal with one
malformed element. -/
theorem C9_witness :
    isPfx ['\x7b'] (strip "\x7ba: 1, 2\x7d".toList) = true ∧
    endsWith (strip "\x7ba: 1, 2\x7d".toList) ['\x7d'] = true ∧
    convertValue [] [] "\x7ba: 1, 2\x7d".toList =
      (mapMO (mapEntryOf (replaceVars [] []))
          (((splitOnSub [','] (((strip "\x7ba: 1, 2\x7d".toList).drop 1).dropLast)).map
            strip).filter (fun p => containsSub [':'] p))).map
        (fun kv => '[' :: List.intercalate ", ".toList kv ++ [']']) :=
  ⟨by decide, by decide,
    C9_map_literal_drops_malformed [] [] "\x7ba: 1, 2\x7d".toList (by decide) (by decide)⟩

end PhpDsl
